import Mathlib

/-!
Verification of the beat/tempo-region annotation engine
(`src/lib/annotate.svelte.ts` plus `src/lib/util.ts`).

The engine is a JavaScript closure over mutable state: a list of tempo
regions holding user-placed beat objects, a `Map` from beat id to beat
object, a selected-region id, a viewport, and three monotonically
incrementing id counters.  We embed it as a pure state-passing model:

* JS numbers are embedded as `ℚ` (exact rational arithmetic).  None of the
  claims below hinges on IEEE-754 rounding; where a float literal (`0.2`,
  `1.2`) is not exactly representable in binary the difference is far below
  every margin appearing in the claims, and we note it at the definition.
* Beat objects are heap-allocated and aliased (the `Map` and the region
  lists reference the same objects, and the `Map` is never pruned, so it
  can hold references to beats no longer in any region).  We model the heap
  explicitly: `St.heap` maps an address to the beat's current fields, a
  region's `userBeats` is a list of addresses, and `St.byId` maps a `Map`
  key to an address (or to `none` when the code stored `undefined`).  A
  beat object is allocated exactly once and its `id` field is never
  written, so the beat's `id` doubles as its address.
* A call that throws (`assertNotNull`), dereferences `undefined`
  (a TypeError), or enters a non-terminating `for` loop is modelled as
  `none`; `console.assert` and `console.error` only log and are modelled
  as no-ops.
* JS `Array.prototype.splice`/`slice` index normalization (negative
  start counts from the end) is embedded in `jsSplice`.

Rat's arithmetic is `@[irreducible]` in this toolchain, which blocks
kernel evaluation of concrete runs; the operations are re-marked
semireducible (this changes no definition, only unfolding hints).
-/

set_option allowUnsafeReducibility true
attribute [semireducible] Rat.mul Rat.add Rat.div Rat.inv Rat.neg Rat.blt Rat.sub
attribute [semireducible] Rat.normalize mkRat

set_option maxRecDepth 4000

namespace Annot

/-- `⌊q⌋` computed on the raw fraction so that the kernel can evaluate it
(`Int.ediv` floors for positive denominators). -/
def ratFloor (q : ℚ) : ℤ := q.num / q.den

theorem ratFloor_eq (q : ℚ) : ratFloor q = ⌊q⌋ := by
  have h := Rat.floor_intCast_div_natCast q.num q.den
  rw [ratFloor, ← h, Rat.num_div_den]

/-- `Math.ceil`, computed on the raw fraction. -/
def ratCeil (q : ℚ) : ℤ := -(ratFloor (-q))

theorem ratCeil_eq (q : ℚ) : ratCeil q = ⌈q⌉ := by
  rw [ratCeil, ratFloor_eq, ← Int.ceil_neg, neg_neg]

/-- `Math.round`: round half toward positive infinity, as JS does for all
finite doubles. -/
def jsRound (q : ℚ) : ℤ := ratFloor (q + 1/2)

theorem jsRound_eq (q : ℚ) : jsRound q = ⌊q + 1/2⌋ := ratFloor_eq _

/-- `Math.sqrt`, modelled exactly on perfect-square rationals (where IEEE
`Math.sqrt` is also exact) and as `0` elsewhere.  Every claim below
evaluates it only at `0`. -/
def sqrtQ (x : ℚ) : ℚ :=
  if 0 ≤ x.num ∧ (Nat.sqrt x.num.toNat) ^ 2 = x.num.toNat ∧ (Nat.sqrt x.den) ^ 2 = x.den
  then (Nat.sqrt x.num.toNat : ℚ) / (Nat.sqrt x.den : ℚ) else 0

theorem sqrtQ_zero : sqrtQ 0 = 0 := by simp [sqrtQ]

/-- `MAX_TEMPO` (line 42). -/
def MAX_TEMPO : ℚ := 300

/-- `MIN_BEAT_SPACING = 60 / MAX_TEMPO` (line 43). -/
def MIN_BEAT_SPACING : ℚ := 60 / MAX_TEMPO

/-- `Array.prototype.splice(start, deleteCount, ...items)`: returns the
array after the edit and the removed elements.  A negative `start` counts
from the end, and both are clamped to the array's range. -/
def jsSplice (l : List α) (start : ℤ) (deleteCount : ℕ) (items : List α) :
    List α × List α :=
  let s : ℕ := if start < 0 then (max (l.length + start) 0).toNat
               else min start.toNat l.length
  (l.take s ++ items ++ l.drop (s + deleteCount), (l.drop s).take deleteCount)

/-- `Array.prototype.slice(start, stop)` for non-negative bounds. -/
def jsSlice (l : List α) (start stop : ℕ) : List α := (l.drop start).take (stop - start)

/-- `isSortedAscending` from `util.ts` specialised to the numeric keys it is
used with: non-strict comparison (`k < last` fails the check). -/
def isSortedAscending : List ℚ → Bool
  | [] => true
  | [_] => true
  | a :: b :: rest => decide (a ≤ b) && isSortedAscending (b :: rest)

/-- Insert into a sorted list (helper for `sortQ`). -/
def insertSorted (x : ℚ) : List ℚ → List ℚ
  | [] => [x]
  | y :: ys => if x ≤ y then x :: y :: ys else y :: insertSorted x ys

/-- A sort of a list of numbers (insertion sort, so that the kernel can
evaluate it).  It stands for `Array.prototype.sort()` in `recomputeTempo`
(line 152), which—called with no comparator—actually compares decimal
string representations; on every list reached by the claims below all
elements are equal, where the two orders coincide. -/
def sortQ : List ℚ → List ℚ
  | [] => []
  | x :: xs => insertSorted x (sortQ xs)

theorem mem_insertSorted {x a : ℚ} {l : List ℚ} :
    a ∈ insertSorted x l ↔ a = x ∨ a ∈ l := by
  induction l with
  | nil => simp [insertSorted]
  | cons y ys ih =>
    simp only [insertSorted]
    split
    · simp
    · simp only [List.mem_cons, ih]
      tauto

theorem mem_sortQ {a : ℚ} {l : List ℚ} : a ∈ sortQ l ↔ a ∈ l := by
  induction l with
  | nil => simp [sortQ]
  | cons x xs ih => simp [sortQ, mem_insertSorted, ih]

theorem length_insertSorted (x : ℚ) (l : List ℚ) :
    (insertSorted x l).length = l.length + 1 := by
  induction l with
  | nil => rfl
  | cons y ys ih =>
    simp only [insertSorted]
    split
    · rfl
    · simp [ih]

theorem length_sortQ (l : List ℚ) : (sortQ l).length = l.length := by
  induction l with
  | nil => rfl
  | cons x xs ih => simp [sortQ, length_insertSorted, ih]

/-- `UserBeat` (lines 16-23).  `id` also serves as the object's heap
address.  `localBeatPeriod : Option ℚ` embeds `number | null`. -/
structure UserBeatData where
  id : ℕ
  regionIndex : ℕ
  isTempoChange : Bool
  time : ℚ
  localBeatPeriod : Option ℚ
deriving Repr, DecidableEq

/-- `AutoBeat` (lines 9-14). -/
structure AutoBeat where
  id : ℕ
  regionIndex : ℕ
  time : ℚ
deriving Repr, DecidableEq

/-- The payload of a tapped tempo estimate (line 28). -/
structure TappedValue where
  meanPeriod : ℚ
  stddev : ℚ
deriving Repr, DecidableEq

/-- `Tempo` (lines 27-29). -/
inductive Tempo where
  | tapped (value : Option TappedValue)
  | fixed (bpm : ℚ) (phaseOffset : ℚ)
deriving Repr, DecidableEq

/-- `TempoRegion` (lines 31-40); `userBeats` holds beat addresses. -/
structure TempoRegion where
  id : ℕ
  index : ℕ
  userBeats : List ℕ
  autoBeats : List AutoBeat
  startTime : ℚ
  endTime : ℚ
  offbeatsMarked : Bool
  tempo : Tempo
deriving Repr, DecidableEq

/-- The tempo part of a region in a `SaveObject` (line 196). -/
inductive SavedTempo where
  | fixed (bpm : ℚ)
  | tapped
deriving Repr, DecidableEq

/-- One region of a `SaveObject` (lines 193-200). -/
structure SavedRegion where
  offbeatsMarked : Bool
  tempo : SavedTempo
  markedBeats : List ℚ
  inferredBeats : List ℚ
deriving Repr, DecidableEq

/-- `SaveObject` (lines 193-200). -/
structure SaveObject where
  tempoRegions : List SavedRegion
deriving Repr, DecidableEq

/-- The engine's state: the closure variables of `Annotate` (lines 202-214).
`heap` holds every user-beat object ever allocated (JS never frees them as
long as the `Map` references them); `byId` is `userBeatsById` (value `none`
embeds a stored `undefined`); the three counters hold the last issued id
(`incrementingId` pre-increments, so the first id is 1).  `saveCount`
counts invocations of the `opts.save` callback. -/
structure St where
  duration : ℚ
  regions : List TempoRegion
  heap : List (ℕ × UserBeatData)
  byId : List (ℕ × Option ℕ)
  selectedRegionId : Option ℕ
  viewportStart : ℚ
  viewportEnd : ℚ
  nextRegionId : ℕ
  nextUserBeatId : ℕ
  nextAutoBeatId : ℕ
  saveCount : ℕ
deriving Repr, DecidableEq

/-- Dereference a beat address.  Every address stored in a region or in
`byId` is allocated in `heap`, so the default is unreachable; it stands in
for the impossible dangling reference. -/
def getBeat (heap : List (ℕ × UserBeatData)) (a : ℕ) : UserBeatData :=
  (heap.lookup a).getD ⟨0, 0, false, 0, none⟩

/-- Update one beat object in the heap. -/
def setBeat (heap : List (ℕ × UserBeatData)) (a : ℕ)
    (f : UserBeatData → UserBeatData) : List (ℕ × UserBeatData) :=
  heap.map (fun p => if p.1 = a then (p.1, f p.2) else p)

/-- The times of a region's beats, in list order (`userBeats[i].time`). -/
def beatTimes (heap : List (ℕ × UserBeatData)) (r : TempoRegion) : List ℚ :=
  r.userBeats.map (fun a => (getBeat heap a).time)

/-- The consecutive inter-beat distances `userBeats[i].time -
userBeats[i-1].time` (the `dists` loop of `recomputeTempo`, lines
138-142). -/
def diffs : List ℚ → List ℚ
  | a :: b :: rest => (b - a) :: diffs (b :: rest)
  | _ => []

/-- Lines 153-156 of `recomputeTempo`: when at least 5 candidates exist,
drop the lowest and highest `Math.ceil(length * 0.2)` of the sorted
candidate list. -/
def trimCandidates (l : List ℚ) : List ℚ :=
  if 5 ≤ l.length then
    let discard := (ratCeil ((l.length : ℚ) * (1/5))).toNat
    jsSlice l discard (l.length - discard)
  else l

/-- `recomputeTempo` (lines 130-191), as a function of the region's beat
times and its previous tempo value.  With zero beats the code only logs an
error and leaves the value unchanged.  `1.2` and `0.2` stand for the float
literals (the difference to their doubles, ≈1e-17, is far below every
margin in the claims).  `candidates.sort()` compares the decimal string
representations; on the lists reached by the claims below all candidates
are equal, where every ordering coincides, so a numeric sort embeds it. -/
def recomputeTempo (times : List ℚ) (old : Option TappedValue) : Option TappedValue :=
  if times.length = 0 then old
  else if times.length < 2 then none
  else
    let dists := diffs times
    let minDist := match dists with
      | [] => 0
      | d :: ds => ds.foldl min d
    let candidates := dists.filter (fun d => decide (d < minDist * (6/5)))
    let trimmed := trimCandidates (sortQ candidates)
    let initialEstimate := trimmed.sum / (trimmed.length : ℚ)
    let sumD := dists.sum
    let count : ℤ := (dists.map (fun d => jsRound (d / initialEstimate))).sum
    let meanPeriod := sumD / (count : ℚ)
    let meanBpm := 60 / meanPeriod
    let variance :=
      ((dists.map (fun d =>
        let periods := jsRound (d / initialEstimate)
        let bpm := 60 / (d / (periods : ℚ))
        (meanBpm - bpm) ^ 2)).sum) / (dists.length : ℚ)
    some ⟨meanPeriod, sqrtQ variance⟩

/-- `recomputePhaseOffset` (lines 104-128) as a function of the region's
beat times, `startTime` and `bpm`, returning the new phase offset.  With
zero beats the code only logs an error and leaves the offset unchanged. -/
def recomputePhaseOffset (times : List ℚ) (startTime bpm oldOffset : ℚ) : ℚ :=
  if times.length = 0 then oldOffset
  else if times.length < 2 then 0
  else
    let period := 60 / bpm
    let errs := (times.drop 1).map (fun t0 =>
      let t := t0 - startTime
      let nPeriods := jsRound (t / period)
      (nPeriods : ℚ) * period - t);
    -(errs.sum / ((times.length : ℚ) - 1))

/-- The `localBeatPeriod` assigned to the beat at position `i` by
`setTimesBetweenBeats` (lines 82-102). -/
def localBeatPeriodAt (value : Option TappedValue) (times : List ℚ) (i : ℕ) : Option ℚ :=
  match value with
  | none => none
  | some v =>
    if i = 0 then none
    else
      match times.get? i, times.get? (i - 1) with
      | some t, some tprev =>
        let between := t - tprev
        let nPeriods := jsRound (between / v.meanPeriod)
        if 0 < nPeriods then some (between / (nPeriods : ℚ)) else none
      | _, _ => none

/-- `setTimesBetweenBeats` (lines 82-102): write each beat's
`localBeatPeriod` into the heap. -/
def setTimesBetweenBeats (heap : List (ℕ × UserBeatData)) (r : TempoRegion)
    (value : Option TappedValue) : List (ℕ × UserBeatData) :=
  let times := beatTimes heap r
  (r.userBeats.enum).foldl
    (fun h p => setBeat h p.2 (fun b => { b with localBeatPeriod := localBeatPeriodAt value times p.1 }))
    heap

/-- `for (let t = start; t < stop; t += period) push(t)`: the values taken
by `t`.  When `start < stop` and `period ≤ 0` the JS loop never ends,
modelled as `none`. -/
def arithPoints (start stop period : ℚ) : Option (List ℚ) :=
  if start < stop then
    if 0 < period then
      some ((List.range (ratCeil ((stop - start) / period)).toNat).map
        (fun k : ℕ => start + (k : ℚ) * period))
    else none
  else some []

/-- The `(userBeat.time, upTo)` pairs of the tapped branch of
`computeAutoBeats` (lines 526-538): each beat paired with the next beat's
time, the last with the region's `endTime`. -/
def tappedSegments : List ℚ → ℚ → List (ℚ × ℚ)
  | [], _ => []
  | [t], e => [(t, e)]
  | t :: t' :: ts, e => (t, t') :: tappedSegments (t' :: ts) e

/-- `computeAutoBeats` (lines 522-550): the projected beat times of one
region, for its whole span.  `none` embeds a non-terminating projection
loop (period `≤ 0`). -/
def computeAutoBeats (heap : List (ℕ × UserBeatData)) (r : TempoRegion) :
    Option (List ℚ) :=
  match r.tempo with
  | .tapped none => some []
  | .tapped (some v) =>
    ((tappedSegments (beatTimes heap r) r.endTime).mapM
      (fun s => arithPoints (s.1 + v.meanPeriod) s.2 v.meanPeriod)).map List.flatten
  | .fixed bpm phaseOffset =>
    arithPoints (r.startTime + phaseOffset) r.endTime (60 / bpm)

/-- The recycling loop of `drawAutopoints` (lines 566-592): reuse the
first `old.length` auto-beat objects positionally (overwriting only
`.time`), allocate fresh ids past that, truncate any surplus.  Returns the
new list and the updated auto-beat id counter. -/
def recycleAutoBeats (regionIndex : ℕ) :
    List AutoBeat → List ℚ → ℕ → List AutoBeat × ℕ
  | _, [], nid => ([], nid)
  | o :: os, t :: ts, nid =>
    let (l, n) := recycleAutoBeats regionIndex os ts nid
    ({ o with time := t } :: l, n)
  | [], t :: ts, nid =>
    let (l, n) := recycleAutoBeats regionIndex [] ts (nid + 1)
    (({ id := nid + 1, regionIndex := regionIndex, time := t } : AutoBeat) :: l, n)

/-- The per-region body of `drawAutopoints` (lines 552-592).  The source
first clears the regions outside the buffered viewport and then walks the
in-view ones; since only the auto-beat id counter threads between regions,
one ordered pass is equivalent. -/
def drawRegions (heap : List (ℕ × UserBeatData)) (drawStart drawEnd : ℚ) :
    List TempoRegion → ℕ → Option (List TempoRegion × ℕ)
  | [], nid => some ([], nid)
  | r :: rs, nid =>
    if drawStart ≤ r.endTime ∧ r.startTime < drawEnd then
      (computeAutoBeats heap r).bind (fun all =>
        let ts := all.filter (fun t => decide (drawStart ≤ t ∧ t < drawEnd))
        let (ab, nid') := recycleAutoBeats r.index r.autoBeats ts nid
        (drawRegions heap drawStart drawEnd rs nid').map
          (fun p => ({ r with autoBeats := ab } :: p.1, p.2)))
    else
      (drawRegions heap drawStart drawEnd rs nid).map
        (fun p => ({ r with autoBeats := [] } :: p.1, p.2))

/-- `drawAutopoints` (lines 552-592).  Its `changedRegions` parameter is
unused by the live code (only by the commented-out remains of an older
variant), so it is dropped here; the function reads the engine's `regions`
through the closure. -/
def drawAutopoints (st : St) : Option St :=
  let drawStart := max (st.viewportStart - 30) 0
  let drawEnd := min (st.viewportEnd + 30) st.duration
  (drawRegions st.heap drawStart drawEnd st.regions st.nextAutoBeatId).map
    (fun p => { st with regions := p.1, nextAutoBeatId := p.2 })

/-- `roundTime` inside `saveState` (lines 240-243), with `n = 6`. -/
def roundTime (t : ℚ) : ℚ := (jsRound (t * 10 ^ 6) : ℚ) / 10 ^ 6

/-- The projection `saveState` applies to a region's tempo (lines 248-251). -/
def savedTempoOf : Tempo → SavedTempo
  | .fixed bpm _ => .fixed bpm
  | .tapped _ => .tapped

/-- `saveState` (lines 239-260): build the `SaveObject` (recomputing
`inferredBeats` for each region's full span, ignoring the viewport) and
invoke the save callback, counted in `saveCount`. -/
def saveState (st : St) : Option (St × SaveObject) :=
  (st.regions.mapM (fun r =>
    (computeAutoBeats st.heap r).map (fun inferredBeats =>
      ({ tempo := savedTempoOf r.tempo,
         offbeatsMarked := r.offbeatsMarked,
         markedBeats := (beatTimes st.heap r).map roundTime,
         inferredBeats := inferredBeats } : SavedRegion)))).map
    (fun srs => ({ st with saveCount := st.saveCount + 1 }, ⟨srs⟩))

/-- `reassignRegionIndices` (lines 216-223): one pass over all regions,
rewriting every region's `index` and every contained beat's
`regionIndex`. -/
def reassignRegionIndices (st : St) : St :=
  let regions := (st.regions.enum).map (fun p => { p.2 with index := p.1 })
  let heap := (st.regions.enum).foldl
    (fun h p => p.2.userBeats.foldl
      (fun h' a => setBeat h' a (fun b => { b with regionIndex := p.1 })) h)
    st.heap
  { st with regions := regions, heap := heap }

/-- The per-region recompute step of `onRegionsChanged` (lines 226-233),
applied to the region currently carrying id `rid`.  `changedRegions`
always holds references to regions live in the engine's list and region
ids are unique, so a reference is embedded as the region's id. -/
def recomputeRegion (st : St) (rid : ℕ) : St :=
  match st.regions.findIdx? (fun r => r.id == rid) with
  | none => st
  | some p =>
    match st.regions.get? p with
    | none => st
    | some r =>
      match r.tempo with
      | .tapped v0 =>
        let v1 := recomputeTempo (beatTimes st.heap r) v0
        let r1 := { r with tempo := .tapped v1 }
        { st with regions := st.regions.set p r1,
                  heap := setTimesBetweenBeats st.heap r1 v1 }
      | .fixed bpm oldOffset =>
        let off := recomputePhaseOffset (beatTimes st.heap r) r.startTime bpm oldOffset
        { st with regions := st.regions.set p ({ r with tempo := .fixed bpm off }) }

/-- `onRegionsChanged` (lines 225-238): recompute the changed regions'
tempo models, redraw the auto beats, and (unless `doSave = false`) invoke
the save callback. -/
def onRegionsChanged (st : St) (changed : List ℕ) (doSave : Bool) : Option St :=
  let st1 := changed.foldl recomputeRegion st
  (drawAutopoints st1).bind (fun st2 =>
    if doSave then (saveState st2).map (fun p => p.1) else some st2)

/-- A JS expression that is a beat object, `null`, or `undefined`
(`pointAfter`/`pointBefore` in `addPoint`, lines 300-317: an empty
neighbouring region makes `userBeats[0]` come out `undefined`, which
later crashes a `.time` access where `null` would have short-circuited). -/
inductive JsBeatRef where
  | null
  | undef
  | beat (b : UserBeatData)
deriving Repr, DecidableEq

/-- The region created by `addPoint` when none exists (lines 269-278). -/
def initialRegion (st0 : St) (time : ℚ) : TempoRegion :=
  { id := st0.nextRegionId + 1, index := 0, startTime := time,
    endTime := st0.duration, userBeats := [], autoBeats := [],
    tempo := .tapped none, offbeatsMarked := false }

/-- Lines 268-281 of `addPoint`: when no region exists yet, create and
select region 0 spanning `[time, duration)`. -/
def withInitialRegion (st0 : St) (time : ℚ) : St :=
  { st0 with regions := [initialRegion st0 time],
             nextRegionId := st0.nextRegionId + 1,
             selectedRegionId := some (st0.nextRegionId + 1) }

/-- `addPoint` (lines 261-401).  Returns `none` for a crash; otherwise the
new state and `true` iff the call took a `return null` exit (rejection).
Note the creation of region 0 (lines 268-281) happens before the
containment search, so a rejected call may still have created a region. -/
def addPoint (st0 : St) (time : ℚ) (isTempoChange : Bool) : Option (St × Bool) :=
  let st := if st0.regions.isEmpty then withInitialRegion st0 time else st0
  match st.regions.head? with
  | none => none
  | some r0 =>
    let cIdxJs : Option ℕ :=
      if time < r0.startTime then some 0
      else st.regions.findIdx? (fun r => decide (r.startTime ≤ time ∧ time < r.endTime))
    match cIdxJs with
    | none => some (st, true)
    | some cIdx =>
      match st.regions.get? cIdx with
      | none => none
      | some cr =>
        let times := beatTimes st.heap cr
        let insertAt := match times.findIdx? (fun t => decide (time < t)) with
          | some i => i
          | none => cr.userBeats.length
        let pointAfter : Option JsBeatRef :=
          if insertAt < cr.userBeats.length then
            (cr.userBeats.get? insertAt).map (fun a => .beat (getBeat st.heap a))
          else if cr.index + 1 < st.regions.length then
            (st.regions.get? (cr.index + 1)).map (fun nr =>
              match nr.userBeats.head? with
              | some a => .beat (getBeat st.heap a)
              | none => .undef)
          else some .null
        let pointBefore : Option JsBeatRef :=
          if 0 < insertAt then
            (cr.userBeats.get? (insertAt - 1)).map (fun a => .beat (getBeat st.heap a))
          else if 0 < cr.index then
            (st.regions.get? (cr.index - 1)).map (fun pr =>
              match pr.userBeats.head? with
              | some a => .beat (getBeat st.heap a)
              | none => .undef)
          else some .null
        match pointAfter, pointBefore with
        | none, _ => none
        | _, none => none
        | some pa, some pb =>
          match pa with
          | .undef => none
          | .beat b =>
            if b.time - time < MIN_BEAT_SPACING then some (st, true)
            else addPointInsert st time isTempoChange cIdx cr insertAt pb
          | .null => addPointInsert st time isTempoChange cIdx cr insertAt pb
where
  /-- The insertion part of `addPoint` (lines 322-401), after the
  point-after spacing check has passed. -/
  addPointInsert (st : St) (time : ℚ) (isTempoChange : Bool) (cIdx : ℕ)
      (cr : TempoRegion) (insertAt : ℕ) (pb : JsBeatRef) : Option (St × Bool) :=
    if isTempoChange then
      if ¬(cIdx = 0 ∧ insertAt = 0) then
        -- split: lines 326-363
        let newRegionIndex := cr.index + 1
        let nbid := st.nextUserBeatId + 1
        let newBeat : UserBeatData :=
          { id := nbid, regionIndex := newRegionIndex, isTempoChange := true,
            time := time, localBeatPeriod := none }
        let spl := jsSplice cr.userBeats (insertAt : ℤ)
          (cr.userBeats.length - insertAt) []
        let newRegion : TempoRegion :=
          { id := st.nextRegionId + 1, index := newRegionIndex,
            userBeats := nbid :: spl.2, autoBeats := [],
            startTime := time, endTime := cr.endTime,
            tempo := match cr.tempo with
              | .fixed bpm _ => .fixed bpm 0
              | .tapped _ => .tapped none,
            offbeatsMarked := cr.offbeatsMarked }
        let cr1 := { cr with userBeats := spl.1, endTime := time }
        let regions1 := st.regions.set cIdx cr1
        let regions2 := (jsSplice regions1 (newRegionIndex : ℤ) 0 [newRegion]).1
        match regions2.get? newRegionIndex with
        | none => none  -- `regions[newRegionIndex].userBeats` on undefined
        | some nr2 =>
          let st1 := { st with
            regions := regions2,
            heap := (nbid, newBeat) :: st.heap,
            byId := (nbid, nr2.userBeats.head?) :: st.byId,
            nextUserBeatId := nbid,
            nextRegionId := st.nextRegionId + 1 }
          let st2 := reassignRegionIndices st1
          let st3 := { st2 with selectedRegionId := some newRegion.id }
          (onRegionsChanged st3 [newRegion.id, cr.id] true).map (fun s => (s, false))
      else
        -- lines 364-378: move region 0's startTime; the splice call
        -- `userBeats.splice(insertAt, 0)` passes no item, so the new beat
        -- is never inserted (only allocated and put in the id map, where
        -- its entry aliases whatever beat sits at `insertAt`).
        let nbid := st.nextUserBeatId + 1
        let newBeat : UserBeatData :=
          { id := nbid, regionIndex := cIdx, isTempoChange := true,
            time := time, localBeatPeriod := none }
        let spl := jsSplice cr.userBeats (insertAt : ℤ) 0 []
        let cr1 := { cr with startTime := time, userBeats := spl.1 }
        let st1 := { st with
          regions := st.regions.set cIdx cr1,
          heap := (nbid, newBeat) :: st.heap,
          byId := (nbid, spl.1.get? insertAt) :: st.byId,
          nextUserBeatId := nbid,
          selectedRegionId := some cr.id }
        (onRegionsChanged st1 [cr.id] true).map (fun s => (s, false))
    else
      -- plain beat: lines 379-399
      match pb with
      | .undef => none
      | .beat b =>
        if time - b.time < MIN_BEAT_SPACING then some (st, true)
        else addPointPlain st time cIdx cr insertAt
      | .null => addPointPlain st time cIdx cr insertAt
  /-- Lines 383-399: insert a plain beat in place. -/
  addPointPlain (st : St) (time : ℚ) (cIdx : ℕ) (cr : TempoRegion)
      (insertAt : ℕ) : Option (St × Bool) :=
    let nbid := st.nextUserBeatId + 1
    let newBeat : UserBeatData :=
      { id := nbid, regionIndex := cIdx, isTempoChange := false,
        time := time, localBeatPeriod := some 0 }
    let spl := jsSplice cr.userBeats (insertAt : ℤ) 0 [nbid]
    let cr1 := { cr with userBeats := spl.1,
                         startTime := min time cr.startTime }
    let st1 := { st with
      regions := st.regions.set cIdx cr1,
      heap := (nbid, newBeat) :: st.heap,
      byId := (nbid, spl.1.get? insertAt) :: st.byId,
      nextUserBeatId := nbid,
      selectedRegionId := some cr.id }
    (onRegionsChanged st1 [cr.id] true).map (fun s => (s, false))

/-- `deletePoint` (lines 403-448).  `none` embeds `assertNotNull` throwing
on an id the `Map` does not know, and the `undefined` dereferences a stale
`regionIndex` can cause.  `console.assert` only logs, and the `Map` entry
of the deleted beat is never removed. -/
def deletePoint (st : St) (id : ℕ) : Option St :=
  match st.byId.lookup id with
  | none => none
  | some none => none
  | some (some addr) =>
    let b := getBeat st.heap addr
    match st.regions.get? b.regionIndex with
    | none => none
    | some cr =>
      if b.isTempoChange then
        match cr.userBeats.head? with
        | none => none  -- `userBeats[0].id` inside console.assert
        | some _ =>
          if 0 < cr.index then
            match st.regions.get? (cr.index - 1) with
            | none => none
            | some pr =>
              -- lines 412-418: `slice(Math.max(1, len - 1))` keeps only
              -- the last beat when the region has three or more.
              let moved := cr.userBeats.drop (max 1 (cr.userBeats.length - 1))
              let pr1 := { pr with userBeats := pr.userBeats ++ moved,
                                   endTime := cr.endTime }
              let regions1 := st.regions.set (cr.index - 1) pr1
              let regions2 := (jsSplice regions1 (cr.index : ℤ) 1 []).1
              let st1 := reassignRegionIndices { st with regions := regions2 }
              let st2 := if st1.selectedRegionId = some cr.id
                then { st1 with selectedRegionId := some pr.id } else st1
              onRegionsChanged st2 [pr.id] true
          else
            onRegionsChanged st [] true
      else
        let idxInRegion : ℤ :=
          match cr.userBeats.findIdx? (fun a => (getBeat st.heap a).id == id) with
          | some i => (i : ℤ)
          | none => -1
        let spl := jsSplice cr.userBeats idxInRegion 1 []
        if 0 < spl.1.length then
          match spl.1.head? with
          | none => none
          | some a0 =>
            let cr1 := { cr with userBeats := spl.1,
                                 startTime := (getBeat st.heap a0).time }
            let st1 := { st with regions := st.regions.set b.regionIndex cr1 }
            onRegionsChanged st1 [cr.id] true
        else
          let cr1 := { cr with userBeats := spl.1 }
          let regions1 := st.regions.set b.regionIndex cr1
          let regions2 := (jsSplice regions1 (cr.index : ℤ) 1 []).1
          let st1 := { st with regions := regions2 }
          let st2 := if st1.selectedRegionId = some cr.id
            then { st1 with selectedRegionId := none } else st1
          onRegionsChanged (reassignRegionIndices st2) [] true

/-- The third argument of `tryMovePoint` (line 453). -/
inductive MovePhase where
  | phaseStart
  | phaseMove
  | phaseEnd
deriving Repr, DecidableEq

/-- `tryMovePoint` (lines 450-512): clamp, write the beat's time through
the `Map` reference, keep region boundaries in sync when the first beat of
a region moved, and notify only on the final phase.  Returns the new state
and the clamped time. -/
def tryMovePoint (st : St) (id : ℕ) (toTime : ℚ) (phase : MovePhase) :
    Option (St × ℚ) :=
  match st.byId.lookup id with
  | none => none
  | some none => none
  | some (some addr) =>
    let b := getBeat st.heap addr
    match st.regions.get? b.regionIndex with
    | none => none  -- console.assert's argument dereferences it
    | some cr =>
      let prevRegion : Option TempoRegion :=
        if 0 < b.regionIndex then st.regions.get? (b.regionIndex - 1) else none
      let beatIdx : ℤ :=
        match cr.userBeats.findIdx? (fun a => (getBeat st.heap a).id == b.id) with
        | some i => (i : ℤ)
        | none => -1
      let times := beatTimes st.heap cr
      let c1 :=
        if 0 < beatIdx then
          match times.get? (beatIdx - 1).toNat with
          | some t => max toTime (t + MIN_BEAT_SPACING)
          | none => toTime
        else match prevRegion with
          | some pr =>
            match (beatTimes st.heap pr).getLast? with
            | some t => max toTime (t + MIN_BEAT_SPACING)
            | none => toTime  -- guarded by `userBeats.length > 0`
          | none => toTime
      let c2? : Option ℚ :=
        if beatIdx < (cr.userBeats.length : ℤ) - 1 then
          match times.get? (beatIdx + 1).toNat with
          | some t => some (min c1 (t - MIN_BEAT_SPACING))
          | none => some c1
        else if cr.index + 1 < st.regions.length then
          match (st.regions.get? (cr.index + 1)).bind
              (fun nr => (beatTimes st.heap nr).head?) with
          | some t => some (min c1 (t - MIN_BEAT_SPACING))
          | none => none  -- `nextRegion.userBeats[0].time` on undefined
        else some c1
      match c2? with
      | none => none
      | some c2 =>
        let clamped :=
          if cr.index = st.regions.length - 1 ∧ beatIdx = (cr.userBeats.length : ℤ) - 1
          then min c2 st.duration else c2
        let heap1 := setBeat st.heap addr (fun bb => { bb with time := clamped })
        let st1 :=
          if beatIdx = 0 then
            let regions1 := st.regions.set b.regionIndex ({ cr with startTime := clamped })
            let regions2 :=
              match prevRegion with
              | some pr =>
                regions1.set (b.regionIndex - 1) ({ pr with endTime := clamped })
              | none => regions1
            { st with heap := heap1, regions := regions2 }
          else { st with heap := heap1 }
        match phase with
        | .phaseEnd => (onRegionsChanged st1 [cr.id] true).map (fun s => (s, clamped))
        | _ => some (st1, clamped)

/-- `setViewport` (lines 514-520): an unchanged viewport returns before
touching anything. -/
def setViewport (st : St) (s e : ℚ) : Option St :=
  if s = st.viewportStart ∧ e = st.viewportEnd then some st
  else drawAutopoints { st with viewportStart := s, viewportEnd := e }

/-- The second argument of `setRegionType` (line 678). -/
inductive RegionKind where
  | fixed
  | tapped
deriving Repr, DecidableEq

/-- `setRegionType` (lines 678-694). -/
def setRegionType (st : St) (regionId : ℕ) (kind : RegionKind) : Option St :=
  match st.regions.findIdx? (fun r => r.id == regionId) with
  | none => none  -- assertNotNull throws
  | some p =>
    match st.regions.get? p with
    | none => none
    | some r =>
      match kind, r.tempo with
      | .fixed, .tapped v =>
        let bpm : ℚ := match v with
          | some tv => (jsRound ((60 / tv.meanPeriod) * 100) : ℚ) / 100
          | none => 60
        onRegionsChanged
          { st with regions := st.regions.set p ({ r with tempo := .fixed bpm 0 }) }
          [r.id] true
      | .tapped, .fixed _ _ =>
        onRegionsChanged
          { st with regions := st.regions.set p ({ r with tempo := .tapped none }) }
          [r.id] true
      | _, _ => some st

/-- `setRegionFixedTempo` (lines 696-705). -/
def setRegionFixedTempo (st : St) (regionId : ℕ) (bpm : ℚ) : Option St :=
  match st.regions.findIdx? (fun r => r.id == regionId) with
  | none => none  -- assertNotNull throws
  | some p =>
    match st.regions.get? p with
    | none => none
    | some r =>
      match r.tempo with
      | .fixed _ off =>
        onRegionsChanged
          { st with regions := st.regions.set p ({ r with tempo := .fixed bpm off }) }
          [r.id] true
      | .tapped _ => some st  -- console.error, no change

/-- The state of a freshly constructed engine with no saved data
(lines 202-214). -/
def initSt (duration : ℚ) : St :=
  { duration := duration, regions := [], heap := [], byId := [],
    selectedRegionId := none, viewportStart := 0, viewportEnd := 0,
    nextRegionId := 0, nextUserBeatId := 0, nextAutoBeatId := 0, saveCount := 0 }

/-- The region-building loop of the `loadSaved` block (lines 715-757).
`idx` is the position of `rest`'s head within `all`; the id counters
thread through.  Where the source would read `markedBeats[0]` of an empty
region it carries `undefined` into the region record (the loop just above,
lines 709-714, only logs an error for such regions); that degenerate path
is modelled as a failure. -/
def loadRegions (duration : ℚ) (all : List SavedRegion) :
    ℕ → List SavedRegion → ℕ → ℕ →
    Option (List TempoRegion × List (ℕ × UserBeatData) × ℕ × ℕ)
  | _, [], nub, nrid => some ([], [], nub, nrid)
  | idx, sr :: rest, nub, nrid =>
    let tempo : Tempo := match sr.tempo with
      | .fixed bpm => .fixed bpm 0
      | .tapped => .tapped none
    match sr.markedBeats.head? with
    | none => none
    | some startTime =>
      let endTime? : Option ℚ :=
        if idx + 1 < all.length then
          (all.get? (idx + 1)).bind (fun nr => nr.markedBeats.head?)
        else some duration
      match endTime? with
      | none => none
      | some endTime =>
        if startTime ≥ endTime then none  -- throw: invalid region times
        else if ¬ isSortedAscending sr.markedBeats then none  -- throw
        else
          let beats := (sr.markedBeats.enum).map (fun p =>
            ({ id := nub + 1 + p.1, regionIndex := idx,
               isTempoChange := p.1 == 0, time := p.2,
               localBeatPeriod := none } : UserBeatData))
          let region : TempoRegion :=
            { id := nrid + 1, index := idx, startTime := startTime,
              endTime := endTime, userBeats := beats.map (fun bb => bb.id),
              autoBeats := [], offbeatsMarked := sr.offbeatsMarked,
              tempo := tempo }
          (loadRegions duration all (idx + 1) rest (nub + sr.markedBeats.length)
              (nrid + 1)).map
            (fun q => (region :: q.1, beats.map (fun bb => (bb.id, bb)) ++ q.2.1,
                       q.2.2))

/-- The `Annotate` constructor (lines 202-214 and 707-766): fresh state,
then — when `loadSaved` is present — build the regions, register every
beat in the id map, reassign indices and run one full recompute pass
without saving. -/
def annotateInit (duration : ℚ) (loadSaved : Option SaveObject) : Option St :=
  match loadSaved with
  | none => some (initSt duration)
  | some saved =>
    (loadRegions duration saved.tempoRegions 0 saved.tempoRegions 0 0).bind
      (fun q =>
        let st := { initSt duration with
          regions := q.1, heap := q.2.1,
          byId := q.1.foldl (fun acc r => acc ++ r.userBeats.map (fun a => (a, some a))) [],
          nextUserBeatId := q.2.2.1, nextRegionId := q.2.2.2 }
        onRegionsChanged (reassignRegionIndices st) (q.1.map (fun r => r.id)) false)

/-- One public call of the engine, for whole-trace statements. -/
inductive Op where
  | add (time : ℚ) (isTempoChange : Bool)
  | del (id : ℕ)
  | move (id : ℕ) (toTime : ℚ) (phase : MovePhase)
  | setType (regionId : ℕ) (kind : RegionKind)
  | setVp (s e : ℚ)
deriving Repr, DecidableEq

/-- Run one call, keeping only the state (`none` = the call did not
complete). -/
def stepOp (st : St) : Op → Option St
  | .add time itc => (addPoint st time itc).map (fun p => p.1)
  | .del id => deletePoint st id
  | .move id toTime phase => (tryMovePoint st id toTime phase).map (fun p => p.1)
  | .setType rid kind => setRegionType st rid kind
  | .setVp s e => setViewport st s e

/-- Run a sequence of calls from a state; `some` means every call
completed (no throw, no crash, no divergence). -/
def runOps (st : St) (ops : List Op) : Option St := ops.foldlM stepOp st

/-! ## List and arithmetic lemmas -/

theorem sum_eq_of_all_eq {l : List ℚ} {c : ℚ} (h : ∀ x ∈ l, x = c) :
    l.sum = l.length * c := by
  induction l with
  | nil => simp
  | cons a t ih =>
    simp only [List.sum_cons, List.length_cons]
    rw [h a (by simp), ih (fun x hx => h x (by simp [hx]))]
    push_cast
    ring

theorem sum_pos_of_all_pos {l : List ℚ} (h : ∀ x ∈ l, 0 < x) (hne : l ≠ []) :
    0 < l.sum := by
  induction l with
  | nil => exact absurd rfl hne
  | cons a t ih =>
    rcases t with _ | ⟨b, t'⟩
    · simpa using h a (by simp)
    · have := ih (fun x hx => h x (by simp [List.mem_cons] at hx ⊢; tauto)) (by simp)
      have ha := h a (by simp)
      simp only [List.sum_cons] at this ⊢
      linarith

theorem foldl_min_le (l : List ℚ) (a : ℚ) :
    l.foldl min a ≤ a ∧ ∀ x ∈ l, l.foldl min a ≤ x := by
  induction l generalizing a with
  | nil => simp
  | cons b t ih =>
    obtain ⟨h1, h2⟩ := ih (min a b)
    refine ⟨le_trans h1 (min_le_left _ _), ?_⟩
    intro x hx
    rcases List.mem_cons.mp hx with rfl | hx'
    · exact le_trans h1 (min_le_right _ _)
    · exact h2 x hx'

theorem foldl_min_mem (l : List ℚ) (a : ℚ) :
    l.foldl min a = a ∨ l.foldl min a ∈ l := by
  induction l generalizing a with
  | nil => simp
  | cons b t ih =>
    rcases ih (min a b) with h | h
    · rcases le_total a b with hab | hab
      · left; rw [List.foldl_cons, h, min_eq_left hab]
      · right; rw [List.foldl_cons, h, min_eq_right hab]; simp
    · right; simp [List.foldl_cons, h]

theorem mem_jsSlice {x : α} {l : List α} {a b : ℕ} (h : x ∈ jsSlice l a b) :
    x ∈ l := by
  simp only [jsSlice] at h
  exact List.mem_of_mem_drop (List.mem_of_mem_take h)

theorem jsSlice_length (l : List α) (a b : ℕ) :
    (jsSlice l a b).length = min (b - a) (l.length - a) := by
  simp [jsSlice]

theorem mem_trimCandidates {x : ℚ} {l : List ℚ} (h : x ∈ trimCandidates l) :
    x ∈ l := by
  simp only [trimCandidates] at h
  split at h
  · exact mem_jsSlice h
  · exact h

theorem trimCandidates_ne_nil {l : List ℚ} (h : l ≠ []) :
    trimCandidates l ≠ [] := by
  have hlen : 0 < l.length := List.length_pos.mpr h
  rw [← List.length_pos]
  simp only [trimCandidates]
  split
  case isTrue h5 =>
    rw [jsSlice_length]
    set d := (ratCeil ((l.length : ℚ) * (1/5))).toNat with hd
    have hceil : (d : ℤ) = ⌈(l.length : ℚ) * (1/5)⌉ := by
      rw [hd, ratCeil_eq, Int.toNat_of_nonneg]
      positivity
    have hdlt : (d : ℚ) < (l.length : ℚ) * (1/5) + 1 := by
      have h1 : (⌈(l.length : ℚ) * (1/5)⌉ : ℚ) < (l.length : ℚ) * (1/5) + 1 :=
        Int.ceil_lt_add_one _
      calc (d : ℚ) = ((d : ℤ) : ℚ) := by push_cast; ring
        _ = (⌈(l.length : ℚ) * (1/5)⌉ : ℚ) := by rw [hceil]
        _ < _ := h1
    have h2d : 2 * (d : ℚ) < l.length := by
      have h5' : (5 : ℚ) ≤ (l.length : ℚ) := by exact_mod_cast h5
      nlinarith
    have h2dn : 2 * d < l.length := by exact_mod_cast h2d
    omega
  case isFalse => exact hlen

theorem jsRound_intCast (k : ℤ) : jsRound (k : ℚ) = k := by
  rw [jsRound_eq, Int.floor_eq_iff]
  constructor
  · linarith
  · have : ((k + 1 : ℤ) : ℚ) = (k : ℚ) + 1 := by push_cast; ring
    linarith [this]

theorem jsRound_natCast (k : ℕ) : jsRound (k : ℚ) = k := by
  exact_mod_cast jsRound_intCast (k : ℤ)

/-! ## Projection and notification infrastructure

`tempoPos` is the side condition under which every projection loop of the
source terminates: a tapped estimate (when present) and a fixed bpm are
positive.  `eraseAuto` forgets a region's derived auto beats; the
projector changes nothing else about a region. -/

def tempoPos : Tempo → Bool
  | .tapped none => true
  | .tapped (some v) => decide (0 < v.meanPeriod)
  | .fixed bpm _ => decide (0 < bpm)

def eraseAuto (r : TempoRegion) : TempoRegion := { r with autoBeats := [] }

theorem all_proj_of_map_eq {f : α → β} {p : β → Prop} {l l' : List α}
    (hmap : l'.map f = l.map f) (h : ∀ a ∈ l, p (f a)) : ∀ a ∈ l', p (f a) := by
  intro a ha
  have : f a ∈ l.map f := hmap ▸ List.mem_map_of_mem f ha
  obtain ⟨b, hb, hba⟩ := List.mem_map.mp this
  exact hba ▸ h b hb

theorem arithPoints_some {p : ℚ} (hp : 0 < p) (s e : ℚ) :
    ∃ l, arithPoints s e p = some l := by
  unfold arithPoints
  by_cases hse : s < e
  · rw [if_pos hse, if_pos hp]
    exact ⟨_, rfl⟩
  · rw [if_neg hse]
    exact ⟨_, rfl⟩

theorem arithPoints_mem {s e p : ℚ} {l : List ℚ} (h : arithPoints s e p = some l) :
    ∀ x ∈ l, s ≤ x ∧ x < e := by
  unfold arithPoints at h
  by_cases hse : s < e
  · rw [if_pos hse] at h
    by_cases hp : 0 < p
    · rw [if_pos hp] at h
      obtain rfl := Option.some_injective _ h.symm
      intro x hx
      obtain ⟨k, hk, rfl⟩ := List.mem_map.mp hx
      rw [List.mem_range] at hk
      constructor
      · have : (0 : ℚ) ≤ (k : ℚ) * p := by positivity
        linarith
      · have hnn : (0 : ℤ) ≤ ratCeil ((e - s) / p) := by
          rw [ratCeil_eq]
          apply Int.ceil_nonneg
          apply div_nonneg <;> linarith
        have hk' : (k : ℤ) < ratCeil ((e - s) / p) := by
          have h1 : (k : ℤ) < ((ratCeil ((e - s) / p)).toNat : ℤ) := by exact_mod_cast hk
          rwa [Int.toNat_of_nonneg hnn] at h1
        rw [ratCeil_eq] at hk'
        have h2 : (k : ℚ) < (e - s) / p := by exact_mod_cast Int.lt_ceil.mp hk'
        have h3 : (k : ℚ) * p < e - s := (lt_div_iff hp).mp h2
        linarith
    · rw [if_neg hp] at h
      cases h
  · rw [if_neg hse] at h
    obtain rfl := Option.some_injective _ h.symm
    intro x hx
    cases hx

theorem mapM_eq_some_of_forall {f : α → Option β} :
    ∀ {l : List α}, (∀ a ∈ l, (f a).isSome) →
      ∃ l', l.mapM f = some l' ∧ List.Forall₂ (fun a b => f a = some b) l l' := by
  intro l
  induction l with
  | nil => intro _; exact ⟨[], rfl, List.Forall₂.nil⟩
  | cons a t ih =>
    intro h
    obtain ⟨b, hb⟩ := Option.isSome_iff_exists.mp (h a (List.mem_cons_self _ _))
    obtain ⟨t', ht', hf⟩ := ih (fun x hx => h x (List.mem_cons_of_mem _ hx))
    refine ⟨b :: t', ?_, List.Forall₂.cons hb hf⟩
    rw [List.mapM_cons, hb, ht']
    rfl

theorem tappedSegments_mem {times : List ℚ} {e : ℚ} :
    ∀ {s : ℚ × ℚ}, s ∈ tappedSegments times e →
      s.1 ∈ times ∧ (s.2 ∈ times ∨ s.2 = e) := by
  induction times with
  | nil => intro s hs; cases hs
  | cons t ts ih =>
    intro s hs
    cases ts with
    | nil =>
      simp only [tappedSegments, List.mem_singleton] at hs
      subst hs
      exact ⟨List.mem_singleton_self _, Or.inr rfl⟩
    | cons t' ts' =>
      simp only [tappedSegments, List.mem_cons] at hs
      rcases hs with rfl | hs
      · exact ⟨List.mem_cons_self _ _, Or.inl (List.mem_cons_of_mem _ (List.mem_cons_self _ _))⟩
      · obtain ⟨h1, h2⟩ := ih hs
        refine ⟨List.mem_cons_of_mem _ h1, ?_⟩
        rcases h2 with h2 | h2
        · exact Or.inl (List.mem_cons_of_mem _ h2)
        · exact Or.inr h2

theorem computeAutoBeats_some {heap : List (ℕ × UserBeatData)} {r : TempoRegion}
    (hpos : tempoPos r.tempo = true) : ∃ l, computeAutoBeats heap r = some l := by
  rw [computeAutoBeats]
  revert hpos
  cases hr : r.tempo with
  | tapped v =>
    cases v with
    | none => exact fun _ => ⟨[], rfl⟩
    | some tv =>
      intro hpos
      have hv : 0 < tv.meanPeriod := by simpa [tempoPos] using hpos
      obtain ⟨ls, hls, _⟩ := @mapM_eq_some_of_forall _ _
        (fun s : ℚ × ℚ => arithPoints (s.1 + tv.meanPeriod) s.2 tv.meanPeriod)
        (tappedSegments (beatTimes heap r) r.endTime)
        (fun s _ => by
          obtain ⟨l, hl⟩ := arithPoints_some hv (s.1 + tv.meanPeriod) s.2
          simp only [hl, Option.isSome_some])
      dsimp only
      rw [hls]
      exact ⟨ls.flatten, rfl⟩
  | fixed bpm off =>
    intro hpos
    have hb : 0 < bpm := by simpa [tempoPos] using hpos
    exact arithPoints_some (by positivity) _ _

theorem forall₂_of_mapM_eq_some {f : α → Option β} :
    ∀ {l : List α} {l' : List β}, l.mapM f = some l' →
      List.Forall₂ (fun a b => f a = some b) l l' := by
  intro l
  induction l with
  | nil =>
    intro l' h
    obtain rfl := Option.some_injective _ h.symm
    exact List.Forall₂.nil
  | cons a t ih =>
    intro l' h
    rw [List.mapM_cons] at h
    cases hfa : f a with
    | none => rw [hfa] at h; cases h
    | some b =>
      rw [hfa] at h
      cases hft : t.mapM f with
      | none => rw [hft] at h; cases h
      | some t' =>
        rw [hft] at h
        simp only [Option.pure_def, Option.bind_some, Option.bind_eq_bind] at h
        obtain rfl := Option.some_injective _ h.symm
        exact List.Forall₂.cons hfa (ih hft)

theorem forall₂_mem_right {R : α → β → Prop} :
    ∀ {l : List α} {l' : List β}, List.Forall₂ R l l' →
      ∀ b ∈ l', ∃ a ∈ l, R a b := by
  intro l l' h
  induction h with
  | nil => intro b hb; cases hb
  | cons hR _ ih =>
    intro b hb
    rcases List.mem_cons.mp hb with rfl | hb'
    · exact ⟨_, List.mem_cons_self _ _, hR⟩
    · obtain ⟨a, ha, hab⟩ := ih b hb'
      exact ⟨a, List.mem_cons_of_mem _ ha, hab⟩

theorem computeAutoBeats_bounds {heap : List (ℕ × UserBeatData)} {r : TempoRegion}
    {l : List ℚ} (h : computeAutoBeats heap r = some l)
    (hb : ∀ t ∈ beatTimes heap r, r.startTime ≤ t ∧ t ≤ r.endTime)
    (hpos : tempoPos r.tempo = true) :
    ∀ x ∈ l, x < r.endTime ∧ (∀ v, r.tempo = .tapped (some v) → r.startTime < x) := by
  rw [computeAutoBeats] at h
  revert h hpos
  cases hr : r.tempo with
  | tapped v =>
    cases v with
    | none =>
      intro h _
      dsimp only at h
      obtain rfl := Option.some_injective _ h.symm
      intro x hx; cases hx
    | some tv =>
      intro h hpos
      have hv : 0 < tv.meanPeriod := by simpa [tempoPos] using hpos
      dsimp only at h
      obtain ⟨ls, hls1, hls2⟩ := Option.map_eq_some'.mp h
      intro x hx
      rw [← hls2] at hx
      obtain ⟨seg, hseg, hxseg⟩ := List.mem_flatten.mp hx
      obtain ⟨s, hsmem, hseq⟩ := forall₂_mem_right (forall₂_of_mapM_eq_some hls1) seg hseg
      obtain ⟨hx1, hx2⟩ := arithPoints_mem hseq x hxseg
      obtain ⟨ht, hu⟩ := tappedSegments_mem hsmem
      have hstart : r.startTime ≤ s.1 := (hb _ ht).1
      have hend : s.2 ≤ r.endTime := by
        rcases hu with hu | hu
        · exact (hb _ hu).2
        · exact le_of_eq hu
      refine ⟨lt_of_lt_of_le hx2 hend, ?_⟩
      intro v' hv'
      obtain rfl : tv = v' := by injection hv' with h'; injection h'
      linarith
  | fixed bpm off =>
    intro h _
    dsimp only at h
    intro x hx
    obtain ⟨h1, h2⟩ := arithPoints_mem h x hx
    refine ⟨h2, fun v hv => ?_⟩
    simp at hv

theorem recycleAutoBeats_times (ri : ℕ) :
    ∀ (ts : List ℚ) (old : List AutoBeat) (nid : ℕ),
      ((recycleAutoBeats ri old ts nid).1.map (fun b => b.time)) = ts := by
  intro ts
  induction ts with
  | nil =>
    intro old nid
    cases old <;> rfl
  | cons t ts ih =>
    intro old nid
    cases old with
    | nil =>
      simp only [recycleAutoBeats, List.map_cons]
      rw [ih]
    | cons o os =>
      simp only [recycleAutoBeats, List.map_cons]
      rw [ih]

theorem eraseAuto_set_autoBeats (r : TempoRegion) (ab : List AutoBeat) :
    eraseAuto { r with autoBeats := ab } = eraseAuto r := rfl

theorem drawRegions_spec {heap : List (ℕ × UserBeatData)} {dS dE : ℚ} :
    ∀ (rs : List TempoRegion) (nid : ℕ), (∀ r ∈ rs, tempoPos r.tempo = true) →
      ∃ rs' n, drawRegions heap dS dE rs nid = some (rs', n) ∧
        rs'.map eraseAuto = rs.map eraseAuto ∧
        ((∀ r ∈ rs, ∀ t ∈ beatTimes heap r, r.startTime ≤ t ∧ t ≤ r.endTime) →
         ∀ r' ∈ rs', ∀ b ∈ r'.autoBeats,
           dS ≤ b.time ∧ b.time < dE ∧ b.time < r'.endTime ∧
           ∀ v, r'.tempo = .tapped (some v) → r'.startTime < b.time) := by
  intro rs
  induction rs with
  | nil =>
    intro nid _
    exact ⟨[], nid, rfl, rfl, fun _ r' hr' => absurd hr' (List.not_mem_nil r')⟩
  | cons r rs ih =>
    intro nid hpos
    have hposr : tempoPos r.tempo = true := hpos r (List.mem_cons_self _ _)
    have hpos' : ∀ x ∈ rs, tempoPos x.tempo = true :=
      fun x hx => hpos x (List.mem_cons_of_mem _ hx)
    rw [drawRegions]
    by_cases hview : dS ≤ r.endTime ∧ r.startTime < dE
    · rw [if_pos hview]
      obtain ⟨all, hall⟩ := @computeAutoBeats_some heap _ hposr
      rw [hall]
      set ts := all.filter (fun t => decide (dS ≤ t ∧ t < dE)) with hts
      obtain ⟨rs', n, hdraw, hmap, hbnd⟩ :=
        ih (recycleAutoBeats r.index r.autoBeats ts nid).2 hpos'
      refine ⟨{ r with autoBeats := (recycleAutoBeats r.index r.autoBeats ts nid).1 } :: rs',
             n, ?_, ?_, ?_⟩
      · simp only [Option.bind_eq_bind, Option.some_bind, hdraw, Option.map_some]
        rfl
      · simp only [List.map_cons, eraseAuto_set_autoBeats, hmap]
      · intro hb r' hr' b hbmem
        rcases List.mem_cons.mp hr' with rfl | hr'
        · have hbt : b.time ∈ ts := by
            have := recycleAutoBeats_times r.index ts r.autoBeats nid
            rw [← this]
            exact List.mem_map_of_mem _ hbmem
          rw [hts, List.mem_filter] at hbt
          obtain ⟨hbin, hbw⟩ := hbt
          have hw : dS ≤ b.time ∧ b.time < dE := of_decide_eq_true hbw
          have hrb := computeAutoBeats_bounds hall
            (hb r (List.mem_cons_self _ _)) hposr b.time hbin
          exact ⟨hw.1, hw.2, hrb.1, hrb.2⟩
        · exact hbnd (fun x hx => hb x (List.mem_cons_of_mem _ hx)) r' hr' b hbmem
    · rw [if_neg hview]
      obtain ⟨rs', n, hdraw, hmap, hbnd⟩ := ih nid hpos'
      refine ⟨{ r with autoBeats := [] } :: rs', n, ?_, ?_, ?_⟩
      · rw [hdraw]; rfl
      · simp only [List.map_cons, eraseAuto_set_autoBeats, hmap]
      · intro hb r' hr' b hbmem
        rcases List.mem_cons.mp hr' with rfl | hr'
        · cases hbmem
        · exact hbnd (fun x hx => hb x (List.mem_cons_of_mem _ hx)) r' hr' b hbmem

theorem drawAutopoints_spec (st : St)
    (hpos : ∀ r ∈ st.regions, tempoPos r.tempo = true) :
    ∃ rs' n, drawAutopoints st = some { st with regions := rs', nextAutoBeatId := n } ∧
      rs'.map eraseAuto = st.regions.map eraseAuto ∧
      ((∀ r ∈ st.regions, ∀ t ∈ beatTimes st.heap r, r.startTime ≤ t ∧ t ≤ r.endTime) →
       ∀ r' ∈ rs', ∀ b ∈ r'.autoBeats,
         max (st.viewportStart - 30) 0 ≤ b.time ∧
         b.time < min (st.viewportEnd + 30) st.duration ∧
         b.time < r'.endTime ∧
         ∀ v, r'.tempo = .tapped (some v) → r'.startTime < b.time) := by
  obtain ⟨rs', n, hdraw, hmap, hbnd⟩ := drawRegions_spec st.regions st.nextAutoBeatId hpos
  refine ⟨rs', n, ?_, hmap, hbnd⟩
  rw [drawAutopoints]
  rw [hdraw]
  rfl

theorem map_tempo_of_eraseAuto {l l' : List TempoRegion}
    (h : l'.map eraseAuto = l.map eraseAuto) :
    l'.map (fun r => r.tempo) = l.map (fun r => r.tempo) := by
  have h2 : l'.map ((fun r => r.tempo) ∘ eraseAuto) = l.map ((fun r => r.tempo) ∘ eraseAuto) := by
    rw [← List.map_map, h, List.map_map]
  simpa using h2

theorem tempoPos_of_eraseAuto {l l' : List TempoRegion}
    (h : l'.map eraseAuto = l.map eraseAuto)
    (hpos : ∀ r ∈ l, tempoPos r.tempo = true) :
    ∀ r ∈ l', tempoPos r.tempo = true := by
  intro r hr
  exact @all_proj_of_map_eq _ _ (fun r => r.tempo) (fun t => tempoPos t = true) _ _
    (map_tempo_of_eraseAuto h) hpos r hr

theorem saveState_spec (st : St)
    (hpos : ∀ r ∈ st.regions, tempoPos r.tempo = true) :
    ∃ obj, saveState st = some ({ st with saveCount := st.saveCount + 1 }, obj) ∧
      List.Forall₂ (fun r sr =>
        sr.markedBeats = (beatTimes st.heap r).map roundTime ∧
        sr.tempo = savedTempoOf r.tempo ∧
        sr.offbeatsMarked = r.offbeatsMarked) st.regions obj.tempoRegions := by
  obtain ⟨srs, hsrs, hf⟩ := @mapM_eq_some_of_forall _ _
    (fun r => (computeAutoBeats st.heap r).map (fun inferredBeats =>
      ({ tempo := savedTempoOf r.tempo,
         offbeatsMarked := r.offbeatsMarked,
         markedBeats := (beatTimes st.heap r).map roundTime,
         inferredBeats := inferredBeats } : SavedRegion)))
    st.regions
    (fun r hr => by
      obtain ⟨l, hl⟩ := @computeAutoBeats_some st.heap _ (hpos r hr)
      simp only [hl]
      rfl)
  refine ⟨⟨srs⟩, ?_, ?_⟩
  · rw [saveState, hsrs]
    rfl
  · refine hf.imp ?_
    intro r sr hrs
    obtain ⟨l, hl1, hl2⟩ := Option.map_eq_some'.mp hrs
    rw [← hl2]
    exact ⟨rfl, rfl, rfl⟩

theorem onRegionsChanged_nil_spec (st : St) (doSave : Bool)
    (hpos : ∀ r ∈ st.regions, tempoPos r.tempo = true) :
    ∃ st', onRegionsChanged st [] doSave = some st' ∧
      st'.regions.map eraseAuto = st.regions.map eraseAuto ∧
      st'.heap = st.heap ∧ st'.byId = st.byId ∧
      st'.selectedRegionId = st.selectedRegionId ∧
      st'.duration = st.duration ∧
      st'.saveCount = st.saveCount + (if doSave then 1 else 0) := by
  obtain ⟨rs', n, hdraw, hmap, _⟩ := drawAutopoints_spec st hpos
  rw [onRegionsChanged]
  simp only [List.foldl_nil, hdraw, Option.bind_eq_bind, Option.some_bind]
  cases doSave with
  | false => exact ⟨_, rfl, hmap, rfl, rfl, rfl, rfl, by simp⟩
  | true =>
    have hpos2 : ∀ r ∈ rs', tempoPos r.tempo = true := tempoPos_of_eraseAuto hmap hpos
    obtain ⟨obj, hsave, _⟩ := saveState_spec { st with regions := rs', nextAutoBeatId := n } hpos2
    simp only [if_true, hsave, Option.map_some]
    exact ⟨_, rfl, hmap, rfl, rfl, rfl, rfl, by simp⟩

theorem dists_multiple_sum {P : ℚ} (hP : 0 < P) :
    ∀ (l : List ℚ), (∀ d ∈ l, ∃ k : ℕ, 1 ≤ k ∧ d = (k : ℚ) * P) →
      ∃ K : ℕ, l.length ≤ K ∧
        (l.map (fun d => jsRound (d / P))).sum = (K : ℤ) ∧
        l.sum = (K : ℚ) * P := by
  intro l
  induction l with
  | nil => intro _; exact ⟨0, by simp, by simp, by simp⟩
  | cons d t ih =>
    intro h
    obtain ⟨K, hK1, hK2, hK3⟩ := ih (fun x hx => h x (List.mem_cons_of_mem _ hx))
    obtain ⟨k, hk1, hkeq⟩ := h d (List.mem_cons_self _ _)
    have hdP : d / P = (k : ℚ) := by
      rw [hkeq, mul_div_assoc, div_self (ne_of_gt hP), mul_one]
    refine ⟨k + K, by simp; omega, ?_, ?_⟩
    · simp only [List.map_cons, List.sum_cons, hdP, jsRound_natCast, hK2]
      push_cast
      ring
    · simp only [List.sum_cons, hK3, hkeq]
      push_cast
      ring

/-! ## Claim theorems: concrete failing traces -/

/-- C9 (amended): after a projection pass, every auto beat lies inside the
buffered viewport `[vs - 30, ve + 30]`; auto beats of tapped regions lie
strictly inside the region's `(startTime, endTime)`; auto beats of fixed
regions lie below `endTime` (but, as the counterexample shows, may precede
`startTime` by a negative phase offset).  And `setViewport` with the
current viewport returns the state unchanged — every previously produced
auto-beat id survives. -/
theorem C9_projection_bounds_and_viewport_noop (st : St)
    (hpos : ∀ r ∈ st.regions, tempoPos r.tempo = true)
    (hbeats : ∀ r ∈ st.regions, ∀ t ∈ beatTimes st.heap r, r.startTime ≤ t ∧ t ≤ r.endTime) :
    (∃ st', drawAutopoints st = some st' ∧
      ∀ r ∈ st'.regions, ∀ b ∈ r.autoBeats,
        st.viewportStart - 30 ≤ b.time ∧ b.time ≤ st.viewportEnd + 30 ∧
        b.time < r.endTime ∧
        (∀ v, r.tempo = .tapped (some v) → r.startTime < b.time)) ∧
    setViewport st st.viewportStart st.viewportEnd = some st := by
  constructor
  · obtain ⟨rs', n, hdraw, hmap, hbnd⟩ := drawAutopoints_spec st hpos
    refine ⟨_, hdraw, ?_⟩
    intro r hr b hb
    obtain ⟨h1, h2, h3, h4⟩ := hbnd hbeats r hr b hb
    refine ⟨?_, ?_, h3, h4⟩
    · calc st.viewportStart - 30 ≤ max (st.viewportStart - 30) 0 := le_max_left _ _
        _ ≤ b.time := h1
    · calc b.time ≤ min (st.viewportEnd + 30) st.duration := le_of_lt h2
        _ ≤ st.viewportEnd + 30 := min_le_left _ _
  · rw [setViewport, if_pos ⟨rfl, rfl⟩]

/-- Witness for the amended C9: a tapped region `[0, 10)` with beats at 0
and 6 and mean period 3, viewport `[0, 10]`. -/
def c9St : St :=
  { duration := 10,
    regions := [{ id := 1, index := 0, userBeats := [1, 2], autoBeats := [],
                  startTime := 0, endTime := 10, offbeatsMarked := false,
                  tempo := .tapped (some ⟨3, 0⟩) }],
    heap := [(1, { id := 1, regionIndex := 0, isTempoChange := false, time := 0,
                   localBeatPeriod := none }),
             (2, { id := 2, regionIndex := 0, isTempoChange := false, time := 6,
                   localBeatPeriod := none })],
    byId := [(1, some 1), (2, some 2)],
    selectedRegionId := none, viewportStart := 0, viewportEnd := 10,
    nextRegionId := 1, nextUserBeatId := 2, nextAutoBeatId := 0, saveCount := 0 }

theorem C9_projection_bounds_witness :
    ((∀ r ∈ c9St.regions, tempoPos r.tempo = true) ∧
     (∀ r ∈ c9St.regions, ∀ t ∈ beatTimes c9St.heap r,
        r.startTime ≤ t ∧ t ≤ r.endTime)) ∧
    ((∃ st', drawAutopoints c9St = some st' ∧
      ∀ r ∈ st'.regions, ∀ b ∈ r.autoBeats,
        c9St.viewportStart - 30 ≤ b.time ∧ b.time ≤ c9St.viewportEnd + 30 ∧
        b.time < r.endTime ∧
        (∀ v, r.tempo = .tapped (some v) → r.startTime < b.time)) ∧
     setViewport c9St c9St.viewportStart c9St.viewportEnd = some c9St) :=
  ⟨⟨by decide, by decide⟩,
   C9_projection_bounds_and_viewport_noop c9St (by decide) (by decide)⟩


/-- An `addPoint` exit that completed an insertion reports `false`, never a
rejection. -/
theorem map_pair_false_ne {o : Option St} {st' : St}
    (h : o.map (fun s => (s, false)) = some (st', true)) : False := by
  obtain ⟨s, _, heq⟩ := Option.map_eq_some'.mp h
  obtain ⟨_, hb⟩ := Prod.mk.injEq _ _ _ _ |>.mp heq
  exact Bool.noConfusion hb

set_option maxHeartbeats 1600000 in
/-- C5 (amended): a rejected `addPoint` runs no save callback, no
recompute and no projection, and leaves the state untouched — except that
when the region list was empty, region 0 has already been created and
selected by the prelude (lines 268-281) before the rejection. -/
theorem C5_reject_frame (st0 : St) (time : ℚ) (itc : Bool) (st' : St)
    (h : addPoint st0 time itc = some (st', true)) :
    st'.saveCount = st0.saveCount ∧ st'.heap = st0.heap ∧ st'.byId = st0.byId ∧
    (st0.regions ≠ [] → st' = st0) ∧
    (st0.regions = [] → st' = withInitialRegion st0 time) := by
  have hgoal : st' = if st0.regions.isEmpty then withInitialRegion st0 time else st0 := by
    rw [addPoint] at h
    set st := if st0.regions.isEmpty then withInitialRegion st0 time else st0 with hst
    clear_value st
    iterate 5 (all_goals (try dsimp only at h); all_goals (try split at h))
    all_goals try simp only [addPoint.addPointInsert, addPoint.addPointPlain] at h
    iterate 6 (all_goals (try dsimp only at h); all_goals (try split at h))
    all_goals try (exact absurd h (fun hh => map_pair_false_ne hh))
    all_goals try (cases h)
    all_goals rfl
  constructor
  · rw [hgoal]; split <;> rfl
  constructor
  · rw [hgoal]; split <;> rfl
  constructor
  · rw [hgoal]; split <;> rfl
  constructor
  · intro hne
    rw [hgoal, if_neg (by simpa [List.isEmpty_iff] using hne)]
  · intro hnil
    rw [hgoal, if_pos (by simpa [List.isEmpty_iff] using hnil)]

/-- Witness for the amended C5: `addPoint 200` on a fresh engine of
duration 100 is rejected after creating region 0. -/
theorem C5_reject_frame_witness :
    addPoint (initSt 100) 200 false = some (withInitialRegion (initSt 100) 200, true) ∧
    ((withInitialRegion (initSt 100) 200).saveCount = (initSt 100).saveCount ∧
     (withInitialRegion (initSt 100) 200).heap = (initSt 100).heap ∧
     (withInitialRegion (initSt 100) 200).byId = (initSt 100).byId ∧
     ((initSt 100).regions ≠ [] → withInitialRegion (initSt 100) 200 = initSt 100) ∧
     ((initSt 100).regions = [] →
        withInitialRegion (initSt 100) 200 = withInitialRegion (initSt 100) 200)) :=
  ⟨by decide, C5_reject_frame (initSt 100) 200 false _ (by decide)⟩


/-- C10: when region 0's first user beat carries the tempo-change flag,
`deletePoint` on it changes no region structure: the region list (up to
re-derived auto beats), every region's `userBeats`, `startTime`,
`endTime`, the beat heap, the id map and the selection are untouched, and
only the projector and the save callback run (the save counter grows by
one). -/
theorem C10_delete_region0_anchor_frame (st : St) (id addr : ℕ) (r0 : TempoRegion)
    (haddr : st.byId.lookup id = some (some addr))
    (hr0 : st.regions.get? (getBeat st.heap addr).regionIndex = some r0)
    (htc : (getBeat st.heap addr).isTempoChange = true)
    (hhead : r0.userBeats.head? = some addr)
    (hidx : r0.index = 0)
    (hpos : ∀ r ∈ st.regions, tempoPos r.tempo = true) :
    ∃ st', deletePoint st id = some st' ∧
      st'.regions.map eraseAuto = st.regions.map eraseAuto ∧
      st'.heap = st.heap ∧ st'.byId = st.byId ∧
      st'.selectedRegionId = st.selectedRegionId ∧
      st'.duration = st.duration ∧
      st'.saveCount = st.saveCount + 1 := by
  rw [deletePoint, haddr]
  dsimp only
  rw [hr0]
  dsimp only
  rw [if_pos htc, hhead]
  dsimp only
  rw [hidx]
  rw [if_neg (lt_irrefl 0)]
  obtain ⟨st', h1, h2, h3, h4, h5, h6, h7⟩ := onRegionsChanged_nil_spec st true hpos
  exact ⟨st', h1, h2, h3, h4, h5, h6, by rw [h7]; rfl⟩

/-- Witness for C10: a one-region engine whose single beat at time 0 is a
tempo-change anchor (as produced by loading a save file). -/
def c10St : St :=
  { duration := 100,
    regions := [{ id := 1, index := 0, userBeats := [1], autoBeats := [],
                  startTime := 0, endTime := 100, offbeatsMarked := false,
                  tempo := .tapped none }],
    heap := [(1, { id := 1, regionIndex := 0, isTempoChange := true, time := 0,
                   localBeatPeriod := none })],
    byId := [(1, some 1)],
    selectedRegionId := none, viewportStart := 0, viewportEnd := 0,
    nextRegionId := 1, nextUserBeatId := 1, nextAutoBeatId := 0, saveCount := 0 }

theorem C10_witness :
    (c10St.byId.lookup 1 = some (some 1) ∧
     c10St.regions.get? (getBeat c10St.heap 1).regionIndex = some
       { id := 1, index := 0, userBeats := [1], autoBeats := [], startTime := 0,
         endTime := 100, offbeatsMarked := false, tempo := .tapped none } ∧
     (getBeat c10St.heap 1).isTempoChange = true) ∧
    ∃ st', deletePoint c10St 1 = some st' ∧
      st'.regions.map eraseAuto = c10St.regions.map eraseAuto ∧
      st'.heap = c10St.heap ∧ st'.byId = c10St.byId ∧
      st'.selectedRegionId = c10St.selectedRegionId ∧
      st'.duration = c10St.duration ∧
      st'.saveCount = c10St.saveCount + 1 := by
  constructor
  · exact ⟨by decide, by decide, by decide⟩
  · exact C10_delete_region0_anchor_frame c10St 1 1
      { id := 1, index := 0, userBeats := [1], autoBeats := [], startTime := 0,
        endTime := 100, offbeatsMarked := false, tempo := .tapped none }
      (by decide) (by decide) (by decide) (by decide) (by decide) (by decide)


/-- C8: a tapped region whose user beats lie on an exact grid of the true
period `P` — every inter-beat gap is a whole positive number of periods,
the smallest gap being one period — gets the recomputed estimate
`meanPeriod = P` and `stddev = 0` exactly (arithmetic is modelled over the
rationals).  In particular beats at 0, 0.5, 1.0, 1.5 give exactly 0.5 and
0 (the witness below). -/
theorem C8_tapped_exact_period (times : List ℚ) (P : ℚ) (old : Option TappedValue)
    (hlen : 2 ≤ times.length) (hP : 0 < P)
    (hmult : ∀ d ∈ diffs times, ∃ k : ℕ, 1 ≤ k ∧ d = (k : ℚ) * P)
    (hmem : P ∈ diffs times) :
    recomputeTempo times old = some ⟨P, 0⟩ := by
  have h0 : ¬ times.length = 0 := by omega
  have h1 : ¬ times.length < 2 := by omega
  obtain ⟨d0, tl, hcons⟩ : ∃ d0 tl, diffs times = d0 :: tl := by
    cases h : diffs times with
    | nil => rw [h] at hmem; cases hmem
    | cons a l => exact ⟨a, l, rfl⟩
  have hmem' : P ∈ d0 :: tl := hcons ▸ hmem
  have hmult' : ∀ d ∈ d0 :: tl, ∃ k : ℕ, 1 ≤ k ∧ d = (k : ℚ) * P := hcons ▸ hmult
  have hge : ∀ d ∈ d0 :: tl, P ≤ d := by
    intro d hd
    obtain ⟨k, hk1, hkeq⟩ := hmult' d hd
    have hk : (1 : ℚ) ≤ (k : ℚ) := by exact_mod_cast hk1
    nlinarith
  -- the minimum distance is exactly P
  have hmin : List.foldl min d0 tl = P := by
    obtain ⟨hle1, hle2⟩ := foldl_min_le tl d0
    apply le_antisymm
    · rcases List.mem_cons.mp hmem' with rfl | hm
      · exact hle1
      · exact hle2 _ hm
    · rcases foldl_min_mem tl d0 with h | h
      · rw [h]; exact hge d0 (List.mem_cons_self _ _)
      · exact hge _ (List.mem_cons_of_mem _ h)
  -- every candidate equals P, and P is a candidate
  have hcand : ∀ x ∈ (d0 :: tl).filter (fun d => decide (d < P * (6/5))), x = P := by
    intro x hx
    obtain ⟨hx1, hx2⟩ := List.mem_filter.mp hx
    have hxlt : x < P * (6/5) := of_decide_eq_true hx2
    obtain ⟨k, hk1, hkeq⟩ := hmult' x hx1
    have hk2 : k < 2 := by
      by_contra hge2
      push_neg at hge2
      have : (2 : ℚ) ≤ (k : ℚ) := by exact_mod_cast hge2
      nlinarith
    interval_cases k
    · rw [hkeq]; push_cast; ring
  have hPin : P ∈ (d0 :: tl).filter (fun d => decide (d < P * (6/5))) := by
    rw [List.mem_filter]
    exact ⟨hmem', decide_eq_true (by nlinarith)⟩
  have hcne : (d0 :: tl).filter (fun d => decide (d < P * (6/5))) ≠ [] :=
    List.ne_nil_of_mem hPin
  -- the trimmed sorted candidates are all P, and there is at least one
  have htr : ∀ x ∈ trimCandidates (sortQ ((d0 :: tl).filter (fun d => decide (d < P * (6/5))))), x = P :=
    fun x hx => hcand x (mem_sortQ.mp (mem_trimCandidates hx))
  have htrne : trimCandidates (sortQ ((d0 :: tl).filter (fun d => decide (d < P * (6/5))))) ≠ [] := by
    apply trimCandidates_ne_nil
    intro hnil
    rw [← List.length_eq_zero, length_sortQ, List.length_eq_zero] at hnil
    exact hcne hnil
  -- hence the initial estimate is exactly P
  have hIE : (trimCandidates (sortQ ((d0 :: tl).filter (fun d => decide (d < P * (6/5)))))).sum /
      ((trimCandidates (sortQ ((d0 :: tl).filter (fun d => decide (d < P * (6/5)))))).length : ℚ) = P := by
    rw [sum_eq_of_all_eq htr]
    have hl0 : (0 : ℚ) < ((trimCandidates (sortQ ((d0 :: tl).filter (fun d => decide (d < P * (6/5)))))).length : ℚ) := by
      have := List.length_pos.mpr htrne
      exact_mod_cast this
    rw [mul_comm, mul_div_assoc, div_self (ne_of_gt hl0), mul_one]
  obtain ⟨K, hK1, hK2, hK3⟩ := dists_multiple_sum hP (d0 :: tl) hmult'
  have hK0 : (0 : ℚ) < (K : ℚ) := by
    have : 0 < K := by simp at hK1; omega
    exact_mod_cast this
  have hKP : (K : ℚ) * P / (K : ℚ) = P := by field_simp
  unfold recomputeTempo
  rw [if_neg h0, if_neg h1, hcons]
  dsimp only
  rw [hmin, hIE, hK2, hK3]
  push_cast
  rw [hKP]
  have hvar : (List.map (fun d => (60 / P - 60 / (d / (jsRound (d / P) : ℚ))) ^ 2) (d0 :: tl)).sum = 0 := by
    rw [sum_eq_of_all_eq, mul_zero]
    intro x hx
    obtain ⟨d, hd, rfl⟩ := List.mem_map.mp hx
    obtain ⟨k, hk1, hkeq⟩ := hmult' d hd
    have hkq : (0 : ℚ) < (k : ℚ) := by exact_mod_cast hk1
    have hdP : d / P = (k : ℚ) := by
      rw [hkeq, mul_div_assoc, div_self (ne_of_gt hP), mul_one]
    rw [hdP, jsRound_natCast]
    have : d / (k : ℚ) = P := by
      rw [hkeq, mul_comm, mul_div_assoc, div_self (ne_of_gt hkq), mul_one]
    rw [Int.cast_natCast, this]
    ring
  rw [hvar, zero_div, sqrtQ_zero]

/-- Witness for C8 at the spec's own instance: beats at 0, 0.5, 1.0, 1.5
(period 0.5 s), evaluated concretely. -/
theorem C8_tapped_exact_period_witness :
    (2 ≤ ([0, 1/2, 1, 3/2] : List ℚ).length ∧ (0 : ℚ) < 1/2 ∧
      (1/2 : ℚ) ∈ diffs [0, 1/2, 1, 3/2]) ∧
    recomputeTempo [0, 1/2, 1, 3/2] none = some ⟨1/2, 0⟩ := by
  constructor
  · exact ⟨by decide, by norm_num, by decide⟩
  · apply C8_tapped_exact_period _ _ _ (by decide) (by norm_num) ?_ (by decide)
    intro d hd
    refine ⟨1, le_rfl, ?_⟩
    have heq : diffs [0, (1:ℚ)/2, 1, 3/2] = [1/2, 1/2, 1/2] := by decide
    rw [heq] at hd
    have hd2 : d = 1/2 := by
      simp only [List.mem_cons, List.not_mem_nil, or_false] at hd
      rcases hd with h | h | h <;> exact h
    rw [hd2]
    push_cast
    ring

/-- C1: after every completed `addPoint`/`deletePoint` call, region
indices, beat `regionIndex`, time-contiguity and `last.endTime = duration`
are claimed to hold.  The code violates the last conjunct: on a track of
duration 100, add beats at 0, a tempo change at 10 and a beat at 11, then
call `deletePoint` twice with the id (3) of the beat at 11.  The id map is
never pruned, so the second call does not throw; its `findIndex` misses
(−1) and `splice(-1, 1)` deletes the *anchor* of region 1, whose removal
leaves one region with `endTime = 10 ≠ 100`.  All five calls complete
(`runOps` returns `some`), and the code's own `console.assert(idxInRegion
>= 0)` fails along the way. -/
theorem C1_last_region_endTime_breaks :
    (runOps (initSt 100)
      [.add 0 false, .add 10 true, .add 11 false, .del 3, .del 3]).map
      (fun st => (st.regions.map (fun r => r.endTime), st.duration))
      = some ([10], 100) := by decide

/-- C2: deleting the tempo-change anchor of a non-first region is claimed
to move *all* the region's remaining beats into the predecessor.  The code
moves only `slice(Math.max(1, len - 1))`: with beats at 10, 11, 12 in
region 1 (anchor id 2 at 10) and a beat at 0 in region 0, deleting the
anchor leaves the predecessor with beat times `[0, 12]` — the beat at 11
is dropped (the claim requires `[0, 11, 12]`). -/
theorem C2_merge_loses_middle_beats :
    (runOps (initSt 100)
      [.add 0 false, .add 10 true, .add 11 false, .add 12 false, .del 2]).map
      (fun st => st.regions.map (fun r => beatTimes st.heap r))
      = some [[0, 12]] := by decide

/-- C3: an `isTempoChange` insertion at the very start of region 0 is
claimed to mutate `startTime` and insert the beat (count grows by one).
The code's `userBeats.splice(insertAt, 0)` passes no item, so nothing is
inserted: after adding a beat at 1 and then a tempo change at 1/2, region
0 has `startTime = 1/2` but still the single beat `[1]`. -/
theorem C3_start_insert_never_happens :
    (runOps (initSt 100) [.add 1 false, .add (1/2) true]).map
      (fun st => st.regions.map (fun r => (r.startTime, beatTimes st.heap r)))
      = some [(1/2, [1])] := by decide

/-- C6: `deletePoint` is claimed to abort exactly when the id does not
refer to a currently existing beat.  After deleting beat id 3 once, a
second `deletePoint 3` should abort without modification; instead it
completes (the `Map` entry was never removed) and destroys region 1: the
beat lists go from `[[0], [10]]` to `[[0]]`. -/
theorem C6_double_delete_completes_and_mutates :
    ((runOps (initSt 100) [.add 0 false, .add 10 true, .add 11 false, .del 3]).bind
      (fun st => (deletePoint st 3).map
        (fun st' => (st.regions.map (fun r => beatTimes st.heap r),
                     st'.regions.map (fun r => beatTimes st'.heap r)))))
      = some ([[0], [10]], [[0]]) := by decide

/-- C5 counterexample: a rejected `addPoint` is claimed to leave no
externally visible state change.  On a fresh engine (no regions),
`addPoint` at time 200 > duration 100 first creates region 0 spanning
`[200, 100)` and selects it, and only then fails the containment search
and returns null: the call is rejected (`true`) yet the region list grew
from empty to one region.  (The save callbackindeed does not run.) -/
theorem C5_reject_after_creating_region :
    (initSt 100).regions.length = 0 ∧
    (addPoint (initSt 100) 200 false).map (fun p => p.2) = some true ∧
    (addPoint (initSt 100) 200 false).map
      (fun p => p.1.regions.map (fun r => (r.id, r.startTime, r.endTime, r.userBeats)))
      = some [(1, 200, 100, [])] ∧
    (addPoint (initSt 100) 200 false).map (fun p => (p.1.saveCount, p.1.selectedRegionId))
      = some (0, some 1) := by decide

/-- C9 counterexample: auto-beat projection is claimed never to produce a
marker outside the region's `[startTime, endTime)`.  For a fixed-tempo
region the projection starts at `startTime + phaseOffset` and the phase
offset can be negative: with region 1 = `[10, 40)`, fixed at 60 BPM, and
user beats at 10 and 10.6, the recomputed phase offset is −2/5 and the
first auto beat lands at 48/5 = 9.6 < 10, inside the buffered viewport
`[-30, 30]` but before the region's start. -/
theorem C9_fixed_tempo_marker_before_region_start :
    ((runOps (initSt 40)
        [.add 0 false, .add 10 true, .setType 2 .fixed, .add (53/5) false]).bind
      (fun st => (st.regions.get? 1).map
        (fun r => (r.startTime, (r.autoBeats.map (fun b => b.time)).head?))))
      = some (10, some (48/5)) ∧ (48/5 : ℚ) < 10 ∧ ((0 : ℚ) - 30) ≤ 48/5 := by decide

end Annot

namespace Annot
theorem sum_ge_of_all_ge {l : List ℚ} {c : ℚ} (h : ∀ x ∈ l, c ≤ x) :
    (l.length : ℚ) * c ≤ l.sum := by
  induction l with
  | nil => simp
  | cons a t ih =>
    have ha := h a (List.mem_cons_self _ _)
    have ht := ih (fun x hx => h x (List.mem_cons_of_mem _ hx))
    simp only [List.sum_cons, List.length_cons]
    push_cast
    nlinarith

theorem sum_lt_of_all_lt {l : List ℚ} {C : ℚ} (hne : l ≠ [])
    (h : ∀ x ∈ l, x < C) : l.sum < (l.length : ℚ) * C := by
  induction l with
  | nil => exact absurd rfl hne
  | cons a t ih =>
    have ha := h a (List.mem_cons_self _ _)
    simp only [List.sum_cons, List.length_cons]
    push_cast
    rcases t with _ | ⟨b, t'⟩
    · simpa using ha
    · have ht := ih (by simp) (fun x hx => h x (List.mem_cons_of_mem _ hx))
      push_cast at ht
      nlinarith

theorem sumInt_ge_length {f : ℚ → ℤ} {l : List ℚ} (h : ∀ x ∈ l, 1 ≤ f x) :
    (l.length : ℤ) ≤ (l.map f).sum := by
  induction l with
  | nil => simp
  | cons a t ih =>
    have ha := h a (List.mem_cons_self _ _)
    have ht := ih (fun x hx => h x (List.mem_cons_of_mem _ hx))
    simp only [List.map_cons, List.sum_cons, List.length_cons]
    push_cast
    omega

theorem diffs_pos_of_chain : ∀ {l : List ℚ}, List.Chain' (· < ·) l →
    ∀ d ∈ diffs l, 0 < d := by
  intro l
  induction l with
  | nil => intro _ d hd; cases hd
  | cons a t ih =>
    intro hc d hd
    cases t with
    | nil => cases hd
    | cons b t' =>
      rw [List.chain'_cons] at hc
      simp only [diffs, List.mem_cons] at hd
      rcases hd with rfl | hd
      · linarith [hc.1]
      · exact ih hc.2 d hd

theorem diffs_length_cons (a : ℚ) (l : List ℚ) : (diffs (a :: l)).length = l.length := by
  induction l generalizing a with
  | nil => rfl
  | cons b t ih => simp only [diffs, List.length_cons, ih]

set_option maxHeartbeats 800000 in
theorem recomputeTempo_pos (times : List ℚ) (v0 : Option TappedValue)
    (hchain : List.Chain' (· < ·) times) (hlen : 1 ≤ times.length) :
    ∀ tv, recomputeTempo times v0 = some tv → 0 < tv.meanPeriod := by
  intro tv h
  by_cases h0 : times.length = 0
  · omega
  by_cases h1 : times.length < 2
  · rw [recomputeTempo, if_neg h0, if_pos h1] at h
    cases h
  obtain ⟨d0, tl, hcons⟩ : ∃ d0 tl, diffs times = d0 :: tl := by
    cases hds : diffs times with
    | nil =>
      obtain ⟨a, b, t, rfl⟩ : ∃ a b t, times = a :: b :: t := by
        cases times with
        | nil => exact absurd rfl h0
        | cons a t =>
          cases t with
          | nil => simp at h1
          | cons b t' => exact ⟨a, b, t', rfl⟩
      cases hds
    | cons x xs => exact ⟨x, xs, rfl⟩
  rw [recomputeTempo, if_neg h0, if_neg h1, hcons] at h
  dsimp only at h
  have hdpos : ∀ d ∈ d0 :: tl, 0 < d := hcons ▸ diffs_pos_of_chain hchain
  set M := List.foldl min d0 tl with hM
  have hMmem : M ∈ d0 :: tl := by
    rcases foldl_min_mem tl d0 with hm | hm
    · rw [hM, hm]; exact List.mem_cons_self _ _
    · rw [hM]; exact List.mem_cons_of_mem _ hm
  have hMpos : 0 < M := hdpos M hMmem
  have hMle : ∀ d ∈ d0 :: tl, M ≤ d := by
    intro d hd
    rcases List.mem_cons.mp hd with rfl | hd'
    · exact (foldl_min_le tl d).1
    · exact (foldl_min_le tl d0).2 d hd'
  set C := (d0 :: tl).filter (fun d => decide (d < M * (6/5))) with hC
  have hCne : C ≠ [] := by
    have : M ∈ C := by
      rw [hC, List.mem_filter]
      exact ⟨hMmem, decide_eq_true (by nlinarith)⟩
    exact List.ne_nil_of_mem this
  have hCbnd : ∀ x ∈ C, M ≤ x ∧ x < M * (6/5) := by
    intro x hx
    rw [hC, List.mem_filter] at hx
    exact ⟨hMle x hx.1, of_decide_eq_true hx.2⟩
  set T := trimCandidates (sortQ C) with hT
  have hTne : T ≠ [] := by
    rw [hT]
    apply trimCandidates_ne_nil
    intro hnil
    rw [← List.length_eq_zero, length_sortQ, List.length_eq_zero] at hnil
    exact hCne hnil
  have hTbnd : ∀ x ∈ T, M ≤ x ∧ x < M * (6/5) :=
    fun x hx => hCbnd x (mem_sortQ.mp (mem_trimCandidates (hT ▸ hx)))
  set E := T.sum / (T.length : ℚ) with hE
  have hTlen : (0 : ℚ) < (T.length : ℚ) := by
    have := List.length_pos.mpr hTne
    exact_mod_cast this
  have hEpos : 0 < E := by
    rw [hE]
    apply div_pos ?_ hTlen
    calc (0 : ℚ) < (T.length : ℚ) * M := by positivity
      _ ≤ T.sum := sum_ge_of_all_ge (fun x hx => (hTbnd x hx).1)
  have hElt : E < 2 * M := by
    rw [hE, div_lt_iff hTlen]
    calc T.sum < (T.length : ℚ) * (M * (6/5)) :=
          sum_lt_of_all_lt hTne (fun x hx => (hTbnd x hx).2)
      _ ≤ 2 * M * (T.length : ℚ) := by nlinarith
  have hround : ∀ d ∈ d0 :: tl, 1 ≤ jsRound (d / E) := by
    intro d hd
    have hdM := hMle d hd
    have hhalf : (1/2 : ℚ) < d / E := by
      rw [lt_div_iff hEpos]
      nlinarith
    rw [jsRound_eq]
    rw [Int.le_floor]
    push_cast
    linarith
  have hcount : (1 : ℤ) ≤ ((d0 :: tl).map (fun d => jsRound (d / E))).sum := by
    calc (1 : ℤ) ≤ ((d0 :: tl).length : ℤ) := by simp
      _ ≤ _ := sumInt_ge_length hround
  have hcountq : (0 : ℚ) < (((d0 :: tl).map (fun d => jsRound (d / E))).sum : ℚ) := by
    exact_mod_cast lt_of_lt_of_le zero_lt_one hcount
  have hsum : 0 < (d0 :: tl).sum := sum_pos_of_all_pos hdpos (by simp)
  obtain rfl : tv = ⟨(d0 :: tl).sum / (((d0 :: tl).map (fun d => jsRound (d / E))).sum : ℚ), _⟩ :=
    (Option.some_injective _ h).symm
  exact div_pos hsum hcountq
end Annot

namespace Annot

theorem lookup_setBeat (heap : List (ℕ × UserBeatData)) (a b : ℕ)
    (f : UserBeatData → UserBeatData) :
    (setBeat heap a f).lookup b = if b = a then (heap.lookup a).map f else heap.lookup b := by
  induction heap with
  | nil => simp [setBeat]
  | cons p t ih =>
    obtain ⟨k, v⟩ := p
    have hcons : setBeat ((k, v) :: t) a f
        = (if k = a then (k, f v) else (k, v)) :: setBeat t a f := rfl
    rw [hcons]
    by_cases hk : k = a
    · rw [if_pos hk]
      by_cases hb : b = k
      · have hba : b = a := hb.trans hk
        have h1 : (b == k) = true := beq_iff_eq.mpr hb
        have h2 : (a == k) = true := beq_iff_eq.mpr hk.symm
        simp only [List.lookup, h1, h2, if_pos hba]
        rfl
      · have hba : ¬b = a := fun h => hb (h.trans hk.symm)
        have h1 : (b == k) = false := beq_eq_false_iff_ne.mpr hb
        simp only [List.lookup, h1, ih, if_neg hba]
    · rw [if_neg hk]
      by_cases hb : b = k
      · have hba : ¬b = a := fun h => hk (hb.symm.trans h)
        have h1 : (b == k) = true := beq_iff_eq.mpr hb
        simp only [List.lookup, h1, if_neg hba]
      · have h1 : (b == k) = false := beq_eq_false_iff_ne.mpr hb
        by_cases hba : b = a
        · have h2 : (a == k) = false := beq_eq_false_iff_ne.mpr (fun h => hk h.symm)
          simp only [List.lookup, h1, h2, ih, if_pos hba]
        · simp only [List.lookup, h1, ih, if_neg hba]

theorem getBeat_setBeat_ne {heap : List (ℕ × UserBeatData)} {a b : ℕ}
    {f : UserBeatData → UserBeatData} (h : b ≠ a) :
    getBeat (setBeat heap a f) b = getBeat heap b := by
  rw [getBeat, getBeat, lookup_setBeat, if_neg h]

theorem time_setBeat_of_fix {f : UserBeatData → UserBeatData}
    (hf : ∀ x, (f x).time = x.time) (heap : List (ℕ × UserBeatData)) (a b : ℕ) :
    (getBeat (setBeat heap a f) b).time = (getBeat heap b).time := by
  by_cases hb : b = a
  · subst hb
    rw [getBeat, getBeat, lookup_setBeat, if_pos rfl]
    cases h : heap.lookup b with
    | none => rfl
    | some v => simpa using hf v

  · rw [getBeat_setBeat_ne hb]

theorem time_setTimesBetweenBeats (heap : List (ℕ × UserBeatData))
    (r : TempoRegion) (v : Option TappedValue) (b : ℕ) :
    (getBeat (setTimesBetweenBeats heap r v) b).time = (getBeat heap b).time := by
  have key : ∀ (l : List (ℕ × ℕ)) (h0 : List (ℕ × UserBeatData)),
      (getBeat (l.foldl (fun h p => setBeat h p.2
        (fun bb => { bb with localBeatPeriod := localBeatPeriodAt v (beatTimes heap r) p.1 })) h0) b).time
      = (getBeat h0 b).time := by
    intro l
    induction l with
    | nil => intro h0; rfl
    | cons p t ih =>
      intro h0
      rw [List.foldl_cons, ih]
      exact @time_setBeat_of_fix
        (fun bb => { bb with localBeatPeriod := localBeatPeriodAt v (beatTimes heap r) p.1 })
        (fun x => rfl) h0 p.2 b
  simpa only [setTimesBetweenBeats] using key r.userBeats.enum heap

theorem time_recomputeRegion (st : St) (rid : ℕ) (b : ℕ) :
    (getBeat (recomputeRegion st rid).heap b).time = (getBeat st.heap b).time := by
  rw [recomputeRegion]
  cases hf : st.regions.findIdx? (fun r => r.id == rid) with
  | none => rfl
  | some p =>
    dsimp only
    cases hg : st.regions.get? p with
    | none => rfl
    | some r =>
      dsimp only
      cases hr : r.tempo with
      | tapped v0 => exact time_setTimesBetweenBeats _ _ _ _
      | fixed bpm off => rfl

theorem beatTimes_recomputeRegion (st : St) (rid : ℕ) (r' : TempoRegion) :
    beatTimes (recomputeRegion st rid).heap r' = beatTimes st.heap r' :=
  List.map_congr_left (fun a _ => time_recomputeRegion st rid a)

theorem findIdx?_found {α : Type _} {p : α → Bool} :
    ∀ {l : List α} {s i : ℕ}, List.findIdx? p l s = some i →
      ∃ k x, s + k = i ∧ l.get? k = some x ∧ p x = true := by
  intro l
  induction l with
  | nil => intro s i h; cases h
  | cons a t ih =>
    intro s i h
    rw [List.findIdx?_cons] at h
    by_cases hp : p a = true
    · rw [if_pos hp] at h
      exact ⟨0, a, by cases h; simp, rfl, hp⟩
    · rw [if_neg hp] at h
      obtain ⟨k, x, hk, hx, hpx⟩ := ih h
      exact ⟨k + 1, x, by omega, hx, hpx⟩

theorem tempoPos_recomputeRegion (st : St) (rid : ℕ)
    (hall : ∀ r ∈ st.regions, tempoPos r.tempo = true)
    (hch : ∀ r ∈ st.regions, r.id = rid →
      List.Chain' (· < ·) (beatTimes st.heap r) ∧ 1 ≤ (beatTimes st.heap r).length) :
    ∀ r ∈ (recomputeRegion st rid).regions, tempoPos r.tempo = true := by
  rw [recomputeRegion]
  cases hf : st.regions.findIdx? (fun r => r.id == rid) with
  | none => exact hall
  | some p =>
    dsimp only
    cases hg : st.regions.get? p with
    | none => exact hall
    | some r =>
      dsimp only
      have hrmem : r ∈ st.regions := List.get?_mem hg
      have hrid : r.id = rid := by
        obtain ⟨k, x, hk, hx, hpx⟩ := findIdx?_found hf
        simp only [Nat.zero_add] at hk
        subst hk
        rw [hg] at hx
        cases hx
        exact beq_iff_eq.mp hpx
      cases hr : r.tempo with
      | tapped v0 =>
        dsimp only
        intro r' hr'
        rcases List.mem_or_eq_of_mem_set hr' with hmem | rfl
        · exact hall r' hmem
        · show tempoPos (.tapped (recomputeTempo (beatTimes st.heap r) v0)) = true
          cases hv : recomputeTempo (beatTimes st.heap r) v0 with
          | none => rfl
          | some tv =>
            have := recomputeTempo_pos (beatTimes st.heap r) v0
              (hch r hrmem hrid).1 (hch r hrmem hrid).2 tv hv
            simpa [tempoPos] using this
      | fixed bpm off =>
        dsimp only
        intro r' hr'
        rcases List.mem_or_eq_of_mem_set hr' with hmem | rfl
        · exact hall r' hmem
        · have := hall r hrmem
          rw [hr] at this
          simpa [tempoPos] using this

end Annot

namespace Annot

end Annot

namespace Annot

end Annot

namespace Annot

def c4Region : TempoRegion :=
  { id := 1, index := 0, userBeats := [1, 2], autoBeats := [],
    startTime := 1, endTime := 100, offbeatsMarked := false,
    tempo := .tapped (some ⟨1, 0⟩) }

def c4St : St :=
  { duration := 100,
    regions := [c4Region],
    heap := [(1, ⟨1, 0, true, 1, none⟩), (2, ⟨2, 0, false, 2, none⟩)],
    byId := [(1, some 1), (2, some 2)],
    selectedRegionId := some 1,
    viewportStart := 0, viewportEnd := 100,
    nextRegionId := 1, nextUserBeatId := 2, nextAutoBeatId := 0,
    saveCount := 0 }

end Annot

namespace Annot

theorem head?_headI {l : List ℚ} (h : l ≠ []) : l.head? = some l.headI := by
  cases l with
  | nil => exact absurd rfl h
  | cons a t => rfl

theorem headI_map_roundTime {l : List ℚ} (h : l ≠ []) :
    (l.map roundTime).headI = roundTime l.headI := by
  cases l with
  | nil => exact absurd rfl h
  | cons a t => rfl

theorem roundTime_close (t : ℚ) : |roundTime t - t| ≤ 1 / 2000000 := by
  have h1 : ((⌊t * 10 ^ 6 + 1/2⌋ : ℤ) : ℚ) ≤ t * 10 ^ 6 + 1/2 := Int.floor_le _
  have h2 : t * 10 ^ 6 + 1/2 - 1 < ((⌊t * 10 ^ 6 + 1/2⌋ : ℤ) : ℚ) := Int.sub_one_lt_floor _
  rw [roundTime, jsRound_eq, abs_le]
  constructor
  · have : ((⌊t * 10 ^ 6 + 1/2⌋ : ℤ) : ℚ) / 10 ^ 6 ≤ t + 1 / 2000000 := by
      rw [div_le_iff (by norm_num : (0:ℚ) < 10 ^ 6)]
      nlinarith
    linarith
  · have : t - 1 / 2000000 ≤ ((⌊t * 10 ^ 6 + 1/2⌋ : ℤ) : ℚ) / 10 ^ 6 := by
      rw [le_div_iff (by norm_num : (0:ℚ) < 10 ^ 6)]
      nlinarith
    linarith

theorem roundTime_lt_of_gap {a b : ℚ} (h : a + MIN_BEAT_SPACING ≤ b) :
    roundTime a < roundTime b := by
  have ha := roundTime_close a
  have hb := roundTime_close b
  have hM : MIN_BEAT_SPACING = 1/5 := by norm_num [MIN_BEAT_SPACING, MAX_TEMPO]
  rw [abs_le] at ha hb
  obtain ⟨ha1, ha2⟩ := ha
  obtain ⟨hb1, hb2⟩ := hb
  linarith

theorem roundTime_lt_right {a b : ℚ} (h : a + MIN_BEAT_SPACING ≤ b) :
    roundTime a < b := by
  have ha := roundTime_close a
  have hM : MIN_BEAT_SPACING = 1/5 := by norm_num [MIN_BEAT_SPACING, MAX_TEMPO]
  rw [abs_le] at ha
  obtain ⟨ha1, ha2⟩ := ha
  linarith

theorem chain_lt_map_roundTime {l : List ℚ}
    (h : List.Chain' (fun a b => a + MIN_BEAT_SPACING ≤ b) l) :
    List.Chain' (· < ·) (l.map roundTime) := by
  rw [List.chain'_map]
  exact h.imp (fun a b hab => roundTime_lt_of_gap hab)

theorem isSortedAscending_of_chain_le : ∀ {l : List ℚ},
    List.Chain' (· ≤ ·) l → isSortedAscending l = true := by
  intro l
  induction l with
  | nil => intro _; rfl
  | cons a t ih =>
    intro h
    cases t with
    | nil => rfl
    | cons b t' =>
      rw [List.chain'_cons] at h
      simp only [isSortedAscending, Bool.and_eq_true, decide_eq_true_eq]
      exact ⟨h.1, ih h.2⟩

theorem chain'_get?_rel {R : ℚ → ℚ → Prop} {l : List ℚ} (h : List.Chain' R l)
    {i : ℕ} {a b : ℚ} (ha : l.get? i = some a) (hb : l.get? (i+1) = some b) : R a b := by
  rw [List.chain'_iff_get] at h
  obtain ⟨hlb, hgb⟩ := List.get?_eq_some.mp hb
  obtain ⟨hla, hga⟩ := List.get?_eq_some.mp ha
  have := h i (by omega)
  rw [hga, hgb] at this
  exact this

theorem lookup_append_right {l1 l2 : List (ℕ × UserBeatData)} {k : ℕ}
    (h : ∀ p ∈ l1, p.1 ≠ k) : (l1 ++ l2).lookup k = l2.lookup k := by
  induction l1 with
  | nil => rfl
  | cons p t ih =>
    have hpk : (k == p.1) = false :=
      beq_eq_false_iff_ne.mpr (fun hh => h p (List.mem_cons_self _ _) hh.symm)
    obtain ⟨k', v⟩ := p
    simp only [List.cons_append, List.lookup, hpk]
    exact ih (fun q hq => h q (List.mem_cons_of_mem _ hq))

theorem lookup_append_left {l1 l2 : List (ℕ × UserBeatData)} {k : ℕ}
    (h : (l1.lookup k).isSome) : (l1 ++ l2).lookup k = l1.lookup k := by
  induction l1 with
  | nil => cases h
  | cons p t ih =>
    obtain ⟨k', v⟩ := p
    by_cases hk : k = k'
    · have hk2 : (k == k') = true := beq_iff_eq.mpr hk
      simp only [List.cons_append, List.lookup, hk2]
    · have hk2 : (k == k') = false := beq_eq_false_iff_ne.mpr hk
      simp only [List.cons_append, List.lookup, hk2] at h ⊢
      exact ih h

theorem lookup_selfmap {bs : List UserBeatData}
    (hnd : (bs.map (fun bb => bb.id)).Nodup) :
    ∀ bb ∈ bs, ((bs.map (fun b => (b.id, b))).lookup bb.id) = some bb := by
  induction bs with
  | nil => intro bb h; cases h
  | cons b t ih =>
    intro bb hbb
    rw [List.map_cons, List.nodup_cons] at hnd
    rcases List.mem_cons.mp hbb with rfl | hm
    · simp only [List.map_cons, List.lookup, beq_self_eq_true]
    · have hne : bb.id ≠ b.id := by
        intro hh
        exact hnd.1 (hh ▸ List.mem_map_of_mem (fun bb' => bb'.id) hm)
      have hb2 : (bb.id == b.id) = false := beq_eq_false_iff_ne.mpr hne
      simp only [List.map_cons, List.lookup, hb2]
      exact ih hnd.2 bb hm

theorem forall₂_get?_right {α β : Type _} {R : α → β → Prop} :
    ∀ {l1 : List α} {l2 : List β}, List.Forall₂ R l1 l2 →
      ∀ i x, l2.get? i = some x → ∃ y, l1.get? i = some y ∧ R y x := by
  intro l1 l2 h
  induction h with
  | nil => intro i x hx; cases hx
  | cons hab hrest ih =>
    intro i x hx
    cases i with
    | zero => cases hx; exact ⟨_, rfl, hab⟩
    | succ i' =>
      obtain ⟨y, hy, hr⟩ := ih i' x hx
      exact ⟨y, hy, hr⟩

theorem forall₂_get?_left {α β : Type _} {R : α → β → Prop} :
    ∀ {l1 : List α} {l2 : List β}, List.Forall₂ R l1 l2 →
      ∀ i y, l1.get? i = some y → ∃ x, l2.get? i = some x ∧ R y x := by
  intro l1 l2 h
  induction h with
  | nil => intro i y hy; cases hy
  | cons hab hrest ih =>
    intro i y hy
    cases i with
    | zero => cases hy; exact ⟨_, rfl, hab⟩
    | succ i' =>
      obtain ⟨x, hx, hr⟩ := ih i' y hy
      exact ⟨x, hx, hr⟩

end Annot

namespace Annot

theorem loadBeats_ids (mb : List ℚ) (nub idx : ℕ) :
    ((mb.enum).map (fun p => ({ id := nub + 1 + p.1, regionIndex := idx, isTempoChange := p.1 == 0, time := p.2, localBeatPeriod := none } : UserBeatData))).map (fun bb => bb.id)
      = (List.range mb.length).map (fun i => nub + 1 + i) := by
  rw [List.map_map, ← List.enum_map_fst mb, List.map_map]
  rfl

theorem loadBeats_times (mb : List ℚ) (nub idx : ℕ) :
    ((mb.enum).map (fun p => ({ id := nub + 1 + p.1, regionIndex := idx, isTempoChange := p.1 == 0, time := p.2, localBeatPeriod := none } : UserBeatData))).map (fun bb => bb.time)
      = mb := by
  rw [List.map_map]
  exact List.enum_map_snd mb

theorem loadBeats_nodup (mb : List ℚ) (nub idx : ℕ) :
    (((mb.enum).map (fun p => ({ id := nub + 1 + p.1, regionIndex := idx, isTempoChange := p.1 == 0, time := p.2, localBeatPeriod := none } : UserBeatData))).map (fun bb => bb.id)).Nodup := by
  rw [loadBeats_ids]
  exact List.Nodup.map (fun a b h => by omega) (List.nodup_range _)

theorem loadBeats_bounds (mb : List ℚ) (nub idx : ℕ) :
    ∀ bb ∈ (mb.enum).map (fun p => ({ id := nub + 1 + p.1, regionIndex := idx, isTempoChange := p.1 == 0, time := p.2, localBeatPeriod := none } : UserBeatData)),
      nub < bb.id ∧ bb.id ≤ nub + mb.length := by
  intro bb hbb
  have hmem := List.mem_map_of_mem (fun bb => bb.id) hbb
  rw [loadBeats_ids] at hmem
  obtain ⟨i, hi, hid⟩ := List.mem_map.mp hmem
  rw [List.mem_range] at hi
  have hid2 : nub + 1 + i = bb.id := hid
  omega

set_option maxHeartbeats 1000000 in
theorem loadRegions_spec (duration : ℚ) (all : List SavedRegion)
    (HA : ∀ sr ∈ all, sr.markedBeats ≠ [])
    (HB : ∀ sr ∈ all, List.Chain' (· < ·) sr.markedBeats)
    (HC : ∀ i sr, all.get? i = some sr →
      (∀ sr2, all.get? (i+1) = some sr2 → sr.markedBeats.headI < sr2.markedBeats.headI) ∧
      (all.get? (i+1) = none → sr.markedBeats.headI < duration))
    (HD : ∀ sr ∈ all, ∀ bpm, sr.tempo = SavedTempo.fixed bpm → 0 < bpm) :
    ∀ (rest : List SavedRegion) (idx nub nrid : ℕ), all.drop idx = rest →
      ∃ out, loadRegions duration all idx rest nub nrid = some out ∧
        out.1.length = rest.length ∧
        (∀ p ∈ out.2.1, nub < p.1) ∧
        List.Forall₂ (fun (r : TempoRegion) (sr : SavedRegion) =>
          r.userBeats.map (fun a => (getBeat out.2.1 a).time) = sr.markedBeats ∧
          savedTempoOf r.tempo = sr.tempo ∧
          r.userBeats ≠ [] ∧
          (∀ a ∈ r.userBeats, (out.2.1.lookup a).isSome = true ∧ nub < a) ∧
          tempoPos r.tempo = true)
          out.1 rest := by
  intro rest
  induction rest with
  | nil =>
    intro idx nub nrid hdrop
    exact ⟨([], [], nub, nrid), rfl, rfl, fun p hp => absurd hp (List.not_mem_nil p),
      List.Forall₂.nil⟩
  | cons sr rest' ih =>
    intro idx nub nrid hdrop
    have hsr_at : all.get? idx = some sr := by
      have h0 := List.get?_drop all idx 0
      rw [hdrop] at h0
      simpa using h0.symm
    have hsr_mem : sr ∈ all := List.get?_mem hsr_at
    have hmbne := HA sr hsr_mem
    have hdrop' : all.drop (idx + 1) = rest' := by
      have h1 := List.drop_drop 1 idx all
      rw [hdrop] at h1
      simpa using h1.symm
    have hsorted : isSortedAscending sr.markedBeats = true :=
      isSortedAscending_of_chain_le ((HB sr hsr_mem).imp (fun a b hab => le_of_lt hab))
    simp only [loadRegions]
    rw [head?_headI hmbne]
    dsimp only
    obtain ⟨endT, hendT, hlt⟩ :
        ∃ endT, (if idx + 1 < all.length then
            (all.get? (idx + 1)).bind (fun nr => nr.markedBeats.head?)
          else some duration) = some endT ∧ sr.markedBeats.headI < endT := by
      by_cases hlen : idx + 1 < all.length
      · rw [if_pos hlen]
        obtain ⟨sr2, hsr2⟩ : ∃ sr2, all.get? (idx + 1) = some sr2 := by
          cases h2 : all.get? (idx + 1) with
          | none => rw [List.get?_eq_none] at h2; omega
          | some x => exact ⟨x, rfl⟩
        rw [hsr2, Option.some_bind, head?_headI (HA sr2 (List.get?_mem hsr2))]
        exact ⟨_, rfl, (HC idx sr hsr_at).1 sr2 hsr2⟩
      · rw [if_neg hlen]
        refine ⟨duration, rfl, (HC idx sr hsr_at).2 ?_⟩
        rw [List.get?_eq_none]
        omega
    rw [hendT]
    dsimp only
    rw [if_neg (not_le.mpr hlt), if_neg (by simp [hsorted])]
    obtain ⟨outT, hT, hlenT, hkeysT, hfaT⟩ :=
      ih (idx + 1) (nub + sr.markedBeats.length) (nrid + 1) hdrop'
    rw [hT, Option.map_some']
    set BS := (sr.markedBeats.enum).map (fun p => ({ id := nub + 1 + p.1, regionIndex := idx, isTempoChange := p.1 == 0, time := p.2, localBeatPeriod := none } : UserBeatData)) with hBS
    have hids := loadBeats_ids sr.markedBeats nub idx
    have htimes := loadBeats_times sr.markedBeats nub idx
    have hnd := loadBeats_nodup sr.markedBeats nub idx
    have hbnd := loadBeats_bounds sr.markedBeats nub idx
    rw [← hBS] at hids htimes hnd hbnd
    have hlkup : ∀ bb ∈ BS,
        ((BS.map (fun b => (b.id, b)) ++ outT.2.1).lookup bb.id) = some bb := by
      intro bb hbb
      have hl1 := lookup_selfmap hnd bb hbb
      rw [@lookup_append_left _ outT.2.1 _ (by rw [hl1]; rfl)]
      exact hl1
    refine ⟨_, rfl, ?_, ?_, ?_⟩
    · simpa using hlenT
    · intro p hp
      rcases List.mem_append.mp hp with hseg | htail
      · obtain ⟨bb, hbb, rfl⟩ := List.mem_map.mp hseg
        exact (hbnd bb hbb).1
      · have := hkeysT p htail
        omega
    · refine List.Forall₂.cons ?_ (hfaT.imp ?_)
      · refine ⟨?_, ?_, ?_, ?_, ?_⟩
        · dsimp only
          rw [List.map_map]
          have hcg : ∀ bb ∈ BS,
              ((fun a => (getBeat (BS.map (fun b => (b.id, b)) ++ outT.2.1) a).time) ∘
                (fun bb => bb.id)) bb = bb.time := by
            intro bb hbb
            show (getBeat _ bb.id).time = bb.time
            rw [getBeat, hlkup bb hbb]
            rfl
          rw [List.map_congr_left hcg]
          exact htimes
        · dsimp only
          cases hst : sr.tempo with
          | fixed bpm => rfl
          | tapped => rfl
        · dsimp only
          intro hnil
          have hlen0 := congrArg List.length hids
          rw [hnil] at hlen0
          simp only [List.length_map, List.length_nil, List.length_range] at hlen0
          exact hmbne (List.length_eq_zero.mp hlen0.symm)
        · dsimp only
          intro a ha
          obtain ⟨bb, hbb, rfl⟩ := List.mem_map.mp ha
          refine ⟨?_, (hbnd bb hbb).1⟩
          rw [hlkup bb hbb]
          rfl
        · dsimp only
          cases hst : sr.tempo with
          | fixed bpm =>
            have := HD sr hsr_mem bpm hst
            simp [tempoPos, this]
          | tapped => rfl
      · intro r sr' hr
        obtain ⟨h1, h2, h3, h4, h5⟩ := hr
        have hskip : ∀ a ∈ r.userBeats,
            ((BS.map (fun b => (b.id, b)) ++ outT.2.1).lookup a) = outT.2.1.lookup a := by
          intro a ha
          apply lookup_append_right
          intro p hp
          obtain ⟨bb, hbb, rfl⟩ := List.mem_map.mp hp
          have hu := (hbnd bb hbb).2
          have hv := (h4 a ha).2
          omega
        refine ⟨?_, h2, h3, ?_, h5⟩
        · rw [← h1]
          apply List.map_congr_left
          intro a ha
          rw [getBeat, getBeat, hskip a ha]
        · intro a ha
          refine ⟨?_, ?_⟩
          · rw [hskip a ha]
            exact (h4 a ha).1
          · have := (h4 a ha).2
            omega

end Annot

namespace Annot

theorem time_reassign (st : St) (b : ℕ) :
    (getBeat (reassignRegionIndices st).heap b).time = (getBeat st.heap b).time := by
  dsimp only [reassignRegionIndices]
  have key : ∀ (l : List (ℕ × TempoRegion)) (h0 : List (ℕ × UserBeatData)),
      (getBeat (l.foldl (fun h p => p.2.userBeats.foldl
        (fun h' a => setBeat h' a (fun bb => { bb with regionIndex := p.1 })) h) h0) b).time
      = (getBeat h0 b).time := by
    intro l
    induction l with
    | nil => intro h0; rfl
    | cons p t ih =>
      intro h0
      rw [List.foldl_cons, ih]
      have inner : ∀ (ub : List ℕ) (h1 : List (ℕ × UserBeatData)),
          (getBeat (ub.foldl (fun h' a => setBeat h' a
            (fun bb => { bb with regionIndex := p.1 })) h1) b).time
          = (getBeat h1 b).time := by
        intro ub
        induction ub with
        | nil => intro h1; rfl
        | cons a t' ih2 =>
          intro h1
          rw [List.foldl_cons, ih2]
          exact @time_setBeat_of_fix
            (fun bb => { bb with regionIndex := p.1 }) (fun x => rfl) h1 a b
      exact inner p.2.userBeats h0
  exact key _ _

theorem regions_reassign_get? (st : St) (p : ℕ) :
    ((reassignRegionIndices st).regions.get? p).map (fun r => (r.userBeats, savedTempoOf r.tempo))
      = (st.regions.get? p).map (fun r => (r.userBeats, savedTempoOf r.tempo)) := by
  dsimp only [reassignRegionIndices]
  rw [List.get?_map, List.get?_enum]
  cases st.regions.get? p <;> rfl

theorem regions_reassign_length (st : St) :
    (reassignRegionIndices st).regions.length = st.regions.length := by
  simp [reassignRegionIndices]

theorem mem_reassign_regions (st : St) :
    ∀ r' ∈ (reassignRegionIndices st).regions, ∃ r ∈ st.regions,
      r'.userBeats = r.userBeats ∧ r'.tempo = r.tempo := by
  intro r' hr'
  dsimp only [reassignRegionIndices] at hr'
  obtain ⟨q, hq, rfl⟩ := List.mem_map.mp hr'
  refine ⟨q.2, ?_, rfl, rfl⟩
  have := List.mem_map_of_mem Prod.snd hq
  rw [List.enum_map_snd] at this
  exact this

theorem recomputeRegion_length (st : St) (rid : ℕ) :
    (recomputeRegion st rid).regions.length = st.regions.length := by
  rw [recomputeRegion]
  cases hf : st.regions.findIdx? (fun r => r.id == rid) with
  | none => rfl
  | some q =>
    dsimp only
    cases hg : st.regions.get? q with
    | none => rfl
    | some r =>
      dsimp only
      cases hr : r.tempo with
      | tapped v0 => exact List.length_set _ _ _
      | fixed bpm off => exact List.length_set _ _ _

theorem recomputeRegion_proj (st : St) (rid : ℕ) (p : ℕ) :
    ((recomputeRegion st rid).regions.get? p).map (fun r => (r.userBeats, savedTempoOf r.tempo))
      = (st.regions.get? p).map (fun r => (r.userBeats, savedTempoOf r.tempo)) := by
  rw [recomputeRegion]
  cases hf : st.regions.findIdx? (fun r => r.id == rid) with
  | none => rfl
  | some q =>
    dsimp only
    cases hg : st.regions.get? q with
    | none => rfl
    | some r =>
      dsimp only
      cases hr : r.tempo with
      | tapped v0 =>
        dsimp only
        rw [List.get?_set]
        by_cases hqp : q = p
        · subst hqp
          rw [if_pos rfl, hg]
          simp only [Option.map_eq_map, Option.map_some', savedTempoOf, hr]
        · rw [if_neg hqp]
      | fixed bpm off =>
        dsimp only
        rw [List.get?_set]
        by_cases hqp : q = p
        · subst hqp
          rw [if_pos rfl, hg]
          simp only [Option.map_eq_map, Option.map_some', savedTempoOf, hr]
        · rw [if_neg hqp]

theorem userBeats_recomputeRegion (st : St) (rid : ℕ) :
    ∀ r' ∈ (recomputeRegion st rid).regions, ∃ r ∈ st.regions, r'.userBeats = r.userBeats := by
  rw [recomputeRegion]
  cases hf : st.regions.findIdx? (fun r => r.id == rid) with
  | none => exact fun r' hr' => ⟨r', hr', rfl⟩
  | some q =>
    dsimp only
    cases hg : st.regions.get? q with
    | none => exact fun r' hr' => ⟨r', hr', rfl⟩
    | some r =>
      dsimp only
      cases hr : r.tempo with
      | tapped v0 =>
        dsimp only
        intro r' hr'
        rcases List.mem_or_eq_of_mem_set hr' with hm | rfl
        · exact ⟨r', hm, rfl⟩
        · exact ⟨r, List.get?_mem hg, rfl⟩
      | fixed bpm off =>
        dsimp only
        intro r' hr'
        rcases List.mem_or_eq_of_mem_set hr' with hm | rfl
        · exact ⟨r', hm, rfl⟩
        · exact ⟨r, List.get?_mem hg, rfl⟩

theorem foldl_recomputeRegion_spec (ids : List ℕ) : ∀ (st : St),
    (∀ r ∈ st.regions, List.Chain' (· < ·) (beatTimes st.heap r) ∧
      1 ≤ (beatTimes st.heap r).length ∧ tempoPos r.tempo = true) →
    (∀ r ∈ (ids.foldl recomputeRegion st).regions,
      List.Chain' (· < ·) (beatTimes (ids.foldl recomputeRegion st).heap r) ∧
      1 ≤ (beatTimes (ids.foldl recomputeRegion st).heap r).length ∧
      tempoPos r.tempo = true) ∧
    (ids.foldl recomputeRegion st).regions.length = st.regions.length ∧
    (∀ p, ((ids.foldl recomputeRegion st).regions.get? p).map
        (fun r => (r.userBeats, savedTempoOf r.tempo))
      = (st.regions.get? p).map (fun r => (r.userBeats, savedTempoOf r.tempo))) ∧
    (∀ b, (getBeat (ids.foldl recomputeRegion st).heap b).time = (getBeat st.heap b).time) := by
  induction ids with
  | nil => exact fun st h => ⟨h, rfl, fun p => rfl, fun b => rfl⟩
  | cons rid t ih =>
    intro st h
    have hstep : ∀ r ∈ (recomputeRegion st rid).regions,
        List.Chain' (· < ·) (beatTimes (recomputeRegion st rid).heap r) ∧
        1 ≤ (beatTimes (recomputeRegion st rid).heap r).length ∧
        tempoPos r.tempo = true := by
      intro r hr
      obtain ⟨r0, hr0, hub⟩ := userBeats_recomputeRegion st rid r hr
      have hbt : beatTimes (recomputeRegion st rid).heap r = beatTimes st.heap r0 := by
        rw [beatTimes_recomputeRegion, beatTimes, beatTimes, hub]
      refine ⟨?_, ?_, ?_⟩
      · rw [hbt]
        exact (h r0 hr0).1
      · rw [hbt]
        exact (h r0 hr0).2.1
      · exact tempoPos_recomputeRegion st rid (fun r1 hr1 => (h r1 hr1).2.2)
          (fun r1 hr1 _ => ⟨(h r1 hr1).1, (h r1 hr1).2.1⟩) r hr
    rw [List.foldl_cons]
    obtain ⟨ha, hb, hc, hd⟩ := ih (recomputeRegion st rid) hstep
    refine ⟨ha, hb.trans (recomputeRegion_length st rid), ?_, ?_⟩
    · intro p
      rw [hc p, recomputeRegion_proj]
    · intro b
      rw [hd b, time_recomputeRegion]

theorem proj_eraseAuto_get? {l l' : List TempoRegion}
    (h : l'.map eraseAuto = l.map eraseAuto) (p : ℕ) :
    (l'.get? p).map (fun r => (r.userBeats, savedTempoOf r.tempo))
      = (l.get? p).map (fun r => (r.userBeats, savedTempoOf r.tempo)) := by
  have h2 := congrArg (fun (l0 : List TempoRegion) => l0.get? p) h
  simp only [List.get?_map] at h2
  have h4 := congrArg (Option.map (fun r => (r.userBeats, savedTempoOf r.tempo))) h2
  rw [Option.map_map, Option.map_map] at h4
  exact h4

theorem onRegionsChanged_noSave_spec (st : St) (ids : List ℕ)
    (hINV : ∀ r ∈ st.regions, List.Chain' (· < ·) (beatTimes st.heap r) ∧
      1 ≤ (beatTimes st.heap r).length ∧ tempoPos r.tempo = true) :
    ∃ st', onRegionsChanged st ids false = some st' ∧
      st'.regions.length = st.regions.length ∧
      (∀ p, (st'.regions.get? p).map (fun r => (r.userBeats, savedTempoOf r.tempo))
        = (st.regions.get? p).map (fun r => (r.userBeats, savedTempoOf r.tempo))) ∧
      (∀ b, (getBeat st'.heap b).time = (getBeat st.heap b).time) := by
  obtain ⟨ha, hb, hc, hd⟩ := foldl_recomputeRegion_spec ids st hINV
  obtain ⟨rs', n, hdraw, hmap, -⟩ := drawAutopoints_spec (ids.foldl recomputeRegion st)
    (fun r hr => (ha r hr).2.2)
  rw [onRegionsChanged, hdraw]
  refine ⟨_, rfl, ?_, ?_, ?_⟩
  · have hl1 : rs'.length = (ids.foldl recomputeRegion st).regions.length := by
      have := congrArg List.length hmap
      simpa using this
    exact hl1.trans hb
  · intro p
    exact (proj_eraseAuto_get? hmap p).trans (hc p)
  · exact hd

end Annot

namespace Annot

set_option maxHeartbeats 1000000 in
/-- C7 (amended): saving and constructing a new engine from the resulting
save object reproduces the model — same number of regions, each reloaded
region's beat times are the original's rounded to 10⁻⁶ s (and the
rounding moves every time by at most 1/2·10⁻⁶ s), and each region keeps
its tempo type, and bpm for fixed regions (`savedTempoOf` captures
exactly type and bpm) — provided the state leaves room at the region
boundaries: every region has a beat, consecutive beats and consecutive
region start beats (and the last start beat against the duration) are at
least the minimum spacing apart, and every tempo model is positive.
Without that room the load-side constructor throws on identical or
unordered region boundaries, so the roundtrip does not hold for every
engine state (see the counterexample). -/
theorem C7_save_load_roundtrip (st : St)
    (hINV : ∀ r ∈ st.regions,
      List.Chain' (fun a b => a + MIN_BEAT_SPACING ≤ b) (beatTimes st.heap r) ∧
      1 ≤ (beatTimes st.heap r).length ∧ tempoPos r.tempo = true)
    (hfirsts : List.Chain' (fun a b => a + MIN_BEAT_SPACING ≤ b)
      ((st.regions.map (fun r => (beatTimes st.heap r).headI)) ++ [st.duration])) :
    ∃ st1 obj st', saveState st = some (st1, obj) ∧
      annotateInit st.duration (some obj) = some st' ∧
      st'.regions.length = st.regions.length ∧
      (∀ p r r', st.regions.get? p = some r → st'.regions.get? p = some r' →
        beatTimes st'.heap r' = (beatTimes st.heap r).map roundTime ∧
        savedTempoOf r'.tempo = savedTempoOf r.tempo) ∧
      (∀ t : ℚ, |roundTime t - t| ≤ 1 / 2000000) := by
  obtain ⟨obj, hsave, hfa⟩ := saveState_spec st (fun r hr => (hINV r hr).2.2)
  have hlensave : st.regions.length = obj.tempoRegions.length := hfa.length_eq
  have HA : ∀ sr ∈ obj.tempoRegions, sr.markedBeats ≠ [] := by
    intro sr hsr
    obtain ⟨r, hrm, hR⟩ := forall₂_mem_right hfa sr hsr
    rw [hR.1]
    intro hnil
    have hl := congrArg List.length hnil
    simp only [List.length_map, List.length_nil] at hl
    have := (hINV r hrm).2.1
    omega
  have HB : ∀ sr ∈ obj.tempoRegions, List.Chain' (· < ·) sr.markedBeats := by
    intro sr hsr
    obtain ⟨r, hrm, hR⟩ := forall₂_mem_right hfa sr hsr
    rw [hR.1]
    exact chain_lt_map_roundTime (hINV r hrm).1
  have HD : ∀ sr ∈ obj.tempoRegions, ∀ bpm, sr.tempo = SavedTempo.fixed bpm → 0 < bpm := by
    intro sr hsr bpm hbpm
    obtain ⟨r, hrm, hR⟩ := forall₂_mem_right hfa sr hsr
    have h2 := hR.2.1
    rw [hbpm] at h2
    have hpos := (hINV r hrm).2.2
    cases hrt : r.tempo with
    | tapped v =>
      rw [hrt] at h2
      cases h2
    | fixed b o =>
      rw [hrt] at h2
      simp only [savedTempoOf, SavedTempo.fixed.injEq] at h2
      rw [hrt] at hpos
      simp only [tempoPos, decide_eq_true_eq] at hpos
      rw [h2]
      exact hpos
  have hLlen : (st.regions.map (fun r => (beatTimes st.heap r).headI)).length
      = st.regions.length := List.length_map _ _
  have hbtne : ∀ r ∈ st.regions, beatTimes st.heap r ≠ [] := by
    intro r hrm hnil
    have := (hINV r hrm).2.1
    rw [hnil] at this
    simp at this
  have HC : ∀ i sr, obj.tempoRegions.get? i = some sr →
      (∀ sr2, obj.tempoRegions.get? (i+1) = some sr2 →
        sr.markedBeats.headI < sr2.markedBeats.headI) ∧
      (obj.tempoRegions.get? (i+1) = none → sr.markedBeats.headI < st.duration) := by
    intro i sr hsr
    obtain ⟨r, hri, hR⟩ := forall₂_get?_right hfa i sr hsr
    have hheadi : sr.markedBeats.headI = roundTime (beatTimes st.heap r).headI := by
      rw [hR.1]
      exact headI_map_roundTime (hbtne r (List.get?_mem hri))
    have hilt : i < st.regions.length := (List.get?_eq_some.mp hri).1
    have hLi : ((st.regions.map (fun r => (beatTimes st.heap r).headI))
        ++ [st.duration]).get? i = some ((beatTimes st.heap r).headI) := by
      rw [List.get?_append (by omega), List.get?_map, hri, Option.map_some']
    constructor
    · intro sr2 hsr2
      obtain ⟨r2, hri2, hR2⟩ := forall₂_get?_right hfa (i+1) sr2 hsr2
      have hilt2 : i + 1 < st.regions.length := (List.get?_eq_some.mp hri2).1
      have hLi2 : ((st.regions.map (fun r => (beatTimes st.heap r).headI))
          ++ [st.duration]).get? (i+1) = some ((beatTimes st.heap r2).headI) := by
        rw [List.get?_append (by omega), List.get?_map, hri2, Option.map_some']
      have hgap := chain'_get?_rel hfirsts hLi hLi2
      rw [hheadi, hR2.1, headI_map_roundTime (hbtne r2 (List.get?_mem hri2))]
      exact roundTime_lt_of_gap hgap
    · intro hnone
      have hge := List.get?_eq_none.mp hnone
      have hLi2 : ((st.regions.map (fun r => (beatTimes st.heap r).headI))
          ++ [st.duration]).get? (i+1) = some st.duration := by
        rw [List.get?_append_right (by omega)]
        have : i + 1 - (st.regions.map (fun r => (beatTimes st.heap r).headI)).length = 0 := by
          omega
        rw [this]
        rfl
      have hgap := chain'_get?_rel hfirsts hLi hLi2
      rw [hheadi]
      exact roundTime_lt_right hgap
  obtain ⟨out, hload, hloadlen, hkeys, hfa2⟩ := loadRegions_spec st.duration obj.tempoRegions
    HA HB HC HD obj.tempoRegions 0 0 0 (List.drop_zero _)
  have hINVR : ∀ r ∈ (reassignRegionIndices { initSt st.duration with
        regions := out.1, heap := out.2.1,
        byId := out.1.foldl (fun acc r => acc ++ r.userBeats.map (fun a => (a, some a))) [],
        nextUserBeatId := out.2.2.1, nextRegionId := out.2.2.2 }).regions,
      List.Chain' (· < ·) (beatTimes (reassignRegionIndices { initSt st.duration with
        regions := out.1, heap := out.2.1,
        byId := out.1.foldl (fun acc r => acc ++ r.userBeats.map (fun a => (a, some a))) [],
        nextUserBeatId := out.2.2.1, nextRegionId := out.2.2.2 }).heap r) ∧
      1 ≤ (beatTimes (reassignRegionIndices { initSt st.duration with
        regions := out.1, heap := out.2.1,
        byId := out.1.foldl (fun acc r => acc ++ r.userBeats.map (fun a => (a, some a))) [],
        nextUserBeatId := out.2.2.1, nextRegionId := out.2.2.2 }).heap r).length ∧
      tempoPos r.tempo = true := by
    intro r hr
    obtain ⟨r0, hr0, hub, htp⟩ := mem_reassign_regions _ r hr
    obtain ⟨p, hp⟩ := List.get?_of_mem hr0
    obtain ⟨srp, hps, hR2⟩ := forall₂_get?_left hfa2 p r0 hp
    have hsrmem : srp ∈ obj.tempoRegions := List.get?_mem hps
    have hbt : beatTimes (reassignRegionIndices { initSt st.duration with
        regions := out.1, heap := out.2.1,
        byId := out.1.foldl (fun acc r => acc ++ r.userBeats.map (fun a => (a, some a))) [],
        nextUserBeatId := out.2.2.1, nextRegionId := out.2.2.2 }).heap r
        = srp.markedBeats := by
      rw [beatTimes, hub, ← hR2.1]
      apply List.map_congr_left
      intro a _
      rw [time_reassign]
    refine ⟨?_, ?_, ?_⟩
    · rw [hbt]
      exact HB srp hsrmem
    · rw [hbt]
      have := List.length_pos.mpr (HA srp hsrmem)
      omega
    · rw [htp]
      exact hR2.2.2.2.2
  obtain ⟨st', hoc, hlen2, hproj2, htime2⟩ := onRegionsChanged_noSave_spec
    (reassignRegionIndices { initSt st.duration with
      regions := out.1, heap := out.2.1,
      byId := out.1.foldl (fun acc r => acc ++ r.userBeats.map (fun a => (a, some a))) [],
      nextUserBeatId := out.2.2.1, nextRegionId := out.2.2.2 })
    (out.1.map (fun r => r.id)) hINVR
  have hinit : annotateInit st.duration (some obj) = some st' := by
    simp only [annotateInit]
    rw [hload, Option.some_bind]
    exact hoc
  refine ⟨_, obj, st', hsave, hinit, ?_, ?_, fun t => roundTime_close t⟩
  · rw [hlen2, regions_reassign_length]
    show out.1.length = st.regions.length
    rw [hloadlen]
    exact hlensave.symm
  · intro p r r' hr hr'
    obtain ⟨srp, hps, hRs⟩ := forall₂_get?_left hfa p r hr
    obtain ⟨rL, hpl, hR2⟩ := forall₂_get?_right hfa2 p srp hps
    have hch : (st'.regions.get? p).map (fun r => (r.userBeats, savedTempoOf r.tempo))
        = (out.1.get? p).map (fun r => (r.userBeats, savedTempoOf r.tempo)) :=
      (hproj2 p).trans (regions_reassign_get? _ p)
    rw [hr', hpl] at hch
    simp only [Option.map_some', Option.some.injEq, Prod.mk.injEq] at hch
    obtain ⟨hub, hstq⟩ := hch
    constructor
    · have e1 : beatTimes st'.heap r' = rL.userBeats.map (fun a => (getBeat out.2.1 a).time) := by
        rw [beatTimes, hub]
        apply List.map_congr_left
        intro a _
        rw [htime2 a, time_reassign]
      rw [e1, hR2.1, hRs.1]
    · rw [hstq, hR2.2.1, hRs.2.1]

end Annot

namespace Annot

theorem C7_witness :
    ∃ st1 obj st', saveState c4St = some (st1, obj) ∧
      annotateInit c4St.duration (some obj) = some st' ∧
      st'.regions.length = c4St.regions.length ∧
      (∀ p r r', c4St.regions.get? p = some r → st'.regions.get? p = some r' →
        beatTimes st'.heap r' = (beatTimes c4St.heap r).map roundTime ∧
        savedTempoOf r'.tempo = savedTempoOf r.tempo) ∧
      (∀ t : ℚ, |roundTime t - t| ≤ 1 / 2000000) :=
  C7_save_load_roundtrip c4St
    (by intro r hr
        obtain rfl := List.mem_singleton.mp hr
        refine ⟨?_, by decide, by decide⟩
        rw [show beatTimes c4St.heap c4Region = [(1 : ℚ), 2] from rfl, List.chain'_pair]
        norm_num [MIN_BEAT_SPACING, MAX_TEMPO])
    (by rw [show (c4St.regions.map (fun r => (beatTimes c4St.heap r).headI)) ++ [c4St.duration]
            = [(1 : ℚ), 100] from rfl, List.chain'_pair]
        norm_num [MIN_BEAT_SPACING, MAX_TEMPO])

end Annot


namespace Annot

/-- C7 (counterexample to the original claim): `addPoint(10)`,
`addPoint(50)`, the tempo-change `addPoint(70, true)`, then dragging the
second region's anchor (id 3) to the track end — `tryMovePoint` clamps it
to the duration 100 — leave the last region spanning `[100, 100)`.
`saveState` succeeds and records `markedBeats` `[[10, 50], [100]]`, but
constructing a new engine from that save object throws on the
`startTime >= endTime` check (the model's `annotateInit` returns `none`),
so the roundtrip does not hold for every engine state. -/
theorem C7_reload_throws_after_anchor_clamp :
    (runOps (initSt 100)
      [.add 10 false, .add 50 false, .add 70 true, .move 3 1000 .phaseEnd]).map
      (fun st =>
        ((saveState st).map (fun p => p.2.tempoRegions.map (fun sr => sr.markedBeats)),
         (saveState st).map (fun p => annotateInit st.duration (some p.2))))
      = some (some [[10, 50], [100]], some none) := by decide

end Annot
